import Mathlib

/-!
Verification of the question-formatting core of `src/app.py` (再生問題フォーマッター).

The Python code is a pipeline of text transformations implemented with `re.sub`,
`re.match`, `re.findall` and plain string operations.  Every regular expression used
by the source is small and fixed, so each one is specialised here into an explicit,
executable scanner over `List Char` that reproduces Python's leftmost, non-overlapping
match semantics (including greedy/lazy backtracking where the concrete pattern allows
it).  Substitution scanners take a fuel argument (initialised with the length of the
input) so that every definition is structurally recursive and kernel-computable;
fuel-irrelevance lemmas below show the results do not depend on the fuel once it is
at least the length of the scanned text.

Notes on fidelity:
* Python's `\s` (for `str` patterns) and `str.strip()` whitespace are modelled by one
  class `isWsC` containing the Unicode whitespace code points (including U+3000 used
  throughout the source's data).
* `src/app.py` iterates over the Python set `{'T', 'B', 'K', 'NK'}`; set iteration
  order is unspecified (hash-randomised) in Python.  The embedding fixes the order
  `T, B, K, NK`.  No theorem below depends on this order: none of the inputs involved
  contains two overlapping protected abbreviations.
-/

namespace SFmt

/-- Japanese script characters: the ranges hiragana U+3040-309F, katakana U+30A0-30FF
and CJK unified ideographs U+4E00-9FFF used by the source's `jp_char` class. -/
def isJpC (c : Char) : Bool :=
  decide ((0x3040 ≤ c.toNat ∧ c.toNat ≤ 0x309F) ∨ (0x30A0 ≤ c.toNat ∧ c.toNat ≤ 0x30FF) ∨
    (0x4E00 ≤ c.toNat ∧ c.toNat ≤ 0x9FFF))

/-- Whitespace for Python's `\s` on `str` and for `str.strip()`. -/
def isWsC (c : Char) : Bool :=
  decide (c.toNat = 0x20 ∨ (0x9 ≤ c.toNat ∧ c.toNat ≤ 0xD) ∨ (0x1C ≤ c.toNat ∧ c.toNat ≤ 0x1F) ∨
    c.toNat = 0x85 ∨ c.toNat = 0xA0 ∨ c.toNat = 0x1680 ∨
    (0x2000 ≤ c.toNat ∧ c.toNat ≤ 0x200A) ∨ c.toNat = 0x2028 ∨ c.toNat = 0x2029 ∨
    c.toNat = 0x202F ∨ c.toNat = 0x205F ∨ c.toNat = 0x3000)

/-- Uppercase ASCII letter, the `[A-Z]` class. -/
def isUpperC (c : Char) : Bool := decide (0x41 ≤ c.toNat ∧ c.toNat ≤ 0x5A)

/-- Lowercase ASCII letter. -/
def isLowerC (c : Char) : Bool := decide (0x61 ≤ c.toNat ∧ c.toNat ≤ 0x7A)

/-- ASCII letter, the `[A-Za-z]` class. -/
def isAlphaC (c : Char) : Bool := isUpperC c || isLowerC c

/-- ASCII digit, the `[0-9]` class. -/
def isDigitC (c : Char) : Bool := decide (0x30 ≤ c.toNat ∧ c.toNat ≤ 0x39)

/-- Circled number glyphs ① (U+2460) through ⑳ (U+2473). -/
def isCircledC (c : Char) : Bool := decide (0x2460 ≤ c.toNat ∧ c.toNat ≤ 0x2473)

/-- Uppercasing of a single ASCII letter, as Python's `str.upper` acts on `[A-Za-z]`. -/
def upperC (c : Char) : Char := if isLowerC c then Char.ofNat (c.toNat - 0x20) else c

/-- The canonical in-band marker `{{BLANK}}` (built from character literals). -/
def marker : List Char := ['{', '{', 'B', 'L', 'A', 'N', 'K', '}', '}']

/-- A matcher: given the text starting at the current position, return the replacement
and the remaining text after the matched span, or `none` if there is no match here. -/
def Mtch : Type := List Char → Option (List Char × List Char)

/-- Fuel-driven scanner for `re.sub`: try the matcher at each position, replace
non-overlapping leftmost matches, resume after the matched span. -/
def substGo (m : Mtch) : Nat → List Char → List Char
  | 0, s => s
  | _ + 1, [] => []
  | n + 1, c :: cs =>
    match m (c :: cs) with
    | some (r, rest) => r ++ substGo m n rest
    | none => c :: substGo m n cs

/-- Substitution of all non-overlapping leftmost matches, Python `re.sub` semantics. -/
def subst (m : Mtch) (s : List Char) : List Char := substGo m s.length s

/-- A matcher is proper when every match consumes at least one character. -/
def Proper (m : Mtch) : Prop :=
  ∀ s r rest, m s = some (r, rest) → rest.length < s.length

/-- Literal matcher with an optional trailing character from `opts` (greedy), covering
patterns of shape `lit[o₁o₂…]?`; with `opts = []` it is a plain literal matcher. -/
def mLit (lit opts rep : List Char) : Mtch := fun s =>
  if lit.isPrefixOf s then
    match s.drop lit.length with
    | c :: cs => if opts.contains c then some (rep, cs) else some (rep, c :: cs)
    | [] => some (rep, [])
  else none

/-- Empty bracket pair `o\s*c`, e.g. `（\s*）`. -/
def mPair (o c : Char) (rep : List Char) : Mtch := fun s =>
  match s with
  | x :: rest =>
    if x = o then
      match rest.dropWhile isWsC with
      | y :: r2 => if y = c then some (rep, r2) else none
      | [] => none
    else none
  | [] => none

/-- Run of two or more copies of `u`, the pattern `u{2,}` (greedy). -/
def mRun2 (u : Char) (rep : List Char) : Mtch := fun s =>
  match s with
  | x :: _ =>
    if x = u then
      let run := s.takeWhile (fun c => c = u)
      if 2 ≤ run.length then some (rep, s.drop run.length) else none
    else none
  | [] => none

/-- Bracketed single character `[open]\s*[mid]\s*[close]`, e.g. `[（(]\s*[ABab]\s*[）)]`. -/
def mBr (opens : List Char) (mid : Char → Bool) (closes : List Char) (rep : List Char) :
    Mtch := fun s =>
  match s with
  | x :: rest =>
    if opens.contains x then
      match rest.dropWhile isWsC with
      | y :: r2 =>
        if mid y then
          match r2.dropWhile isWsC with
          | z :: r3 => if closes.contains z then some (rep, r3) else none
          | [] => none
        else none
      | [] => none
    else none
  | [] => none

/-- The eleven `BLANK_PATTERNS` of `src/app.py`, in source order, each as a matcher;
all replace the match with the canonical marker. -/
def blankMatchers : List Mtch :=
  [ mPair '（' '）' marker
  , mPair '(' ')' marker
  , mPair '【' '】' marker
  , mPair '[' ']' marker
  , mRun2 '_' marker
  , mRun2 '＿' marker
  , mBr ['（', '('] (fun c => c = 'A' ∨ c = 'B' ∨ c = 'a' ∨ c = 'b') ['）', ')'] marker
  , mBr ['（'] (fun c => c.toNat = 0x2460 ∨ c.toNat = 0x2461) ['）'] marker
  , mBr ['('] (fun c => c.toNat = 0x2460 ∨ c.toNat = 0x2461) [')'] marker
  , mBr ['（'] (fun c => c = '1' ∨ c = '2') ['）'] marker
  , mBr ['('] (fun c => c = '1' ∨ c = '2') [')'] marker ]

/-- The `exclude_suffixes` alternation of `normalize_standalone_letters`, in source
order (leftmost alternative wins, as in Python's `re`). -/
def suffixWords : List (List Char) :=
  [("型").data, ("群").data, ("細胞").data, ("抗原").data, ("受容体").data,
   ("リンパ球").data, ("ウイルス").data, ("遺伝子").data, ("タンパク").data, ("蛋白").data,
   ("因子").data, ("鎖").data, ("座").data, ("領域").data, ("ドメイン").data,
   ("クラス").data, ("サブ").data, ("波").data, ("線").data, ("層").data,
   ("帯").data, ("管").data, ("点").data, ("面").data, ("軸").data,
   ("端").data, ("相").data, ("期").data, ("染色体").data]

/-- Suffix words of the `__PROTECT__` step: `細胞|リンパ球|抗原|受容体`. -/
def protectWords : List (List Char) :=
  [("細胞").data, ("リンパ球").data, ("抗原").data, ("受容体").data]

/-- The set `{'T', 'B', 'K', 'NK'}`, fixed in the order `T, B, K, NK` (see header note). -/
def protectLetters : List (List Char) := [['T'], ['B'], ['K'], ['N', 'K']]

/-- First alternative of `alts` that is a prefix of `s`, with the rest of `s` after it. -/
def firstAlt (alts : List (List Char)) (s : List Char) : Option (List Char × List Char) :=
  match alts with
  | [] => none
  | w :: ws => if w.isPrefixOf s then some (w, s.drop w.length) else firstAlt ws s

/-- Matcher for `ls(細胞|リンパ球|抗原|受容体)` replaced by `__PROTECT_ls_\1__`. -/
def mProtect (ls : List Char) : Mtch := fun s =>
  if ls.isPrefixOf s then
    match firstAlt protectWords (s.drop ls.length) with
    | some (w, rest) =>
      some (("__PROTECT_").data ++ ls ++ '_' :: (w ++ ("__").data), rest)
    | none => none
  else none

/-- Matcher for the protection pattern `(jp_char)([A-Z])(exclude_suffixes)`, replaced by
`\1__TECH_\2__\3`. -/
def mTech : Mtch := fun s =>
  match s with
  | c :: l :: rest =>
    if isJpC c && isUpperC l then
      match firstAlt suffixWords rest with
      | some (w, r2) => some (c :: (("__TECH_").data ++ l :: (("__").data ++ w)), r2)
      | none => none
    else none
  | _ => none

/-- The class `[ぁ-ゟ゠-ヿ一-鿿、,とや・]` before a standalone letter (the explicit
connectives と, や, ・ already lie inside the katakana/hiragana ranges). -/
def isBeforeC (c : Char) : Bool := isJpC c || c = '、' || c = ','

/-- The class after a standalone letter; `…とや・など` adds only characters already in
the ranges, so it coincides with `isBeforeC`. -/
def isAfterC (c : Char) : Bool := isJpC c || c = '、' || c = ','

/-- One `re.sub` pass of the repeated standalone-letter pattern
`(before)([A-Z])(after)` → `\1{{BLANK}}\3`: scanning is non-overlapping, and resumes
after the consumed three-character match. -/
def passStep : List Char → List Char
  | b :: l :: a :: rest =>
    if isBeforeC b && isUpperC l && isAfterC a then
      b :: (marker ++ a :: passStep rest)
    else
      b :: passStep (l :: a :: rest)
  | s => s

/-- Number of positions at which the standalone-letter pattern matches; the measure
that each changing `passStep` strictly decreases. -/
def countConv : List Char → Nat
  | b :: l :: a :: rest =>
    (if isBeforeC b && isUpperC l && isAfterC a then 1 else 0) + countConv (l :: a :: rest)
  | _ => 0

/-- The `while prev_result != result` loop of the source, with enough fuel to reach a
fixpoint (`countConv` strictly decreases on every changing pass, proved below). -/
def nslIter : Nat → List Char → List Char
  | 0, s => s
  | n + 1, s =>
    let t := passStep s
    if t = s then s else nslIter n t

/-- The repeated re-scanning loop of `normalize_standalone_letters`. -/
def nslLoop (s : List Char) : List Char := nslIter (countConv s + 1) s

/-- Lazy segment: minimal non-empty run of non-newline characters followed by `stop`
(the pattern `(.+?)stop`); returns the captured run and the text after `stop`. -/
def lazyUpTo (stop : List Char) : Nat → List Char → Option (List Char × List Char)
  | 0, _ => none
  | _ + 1, [] => none
  | n + 1, c :: cs =>
    if c = '\n' then none
    else if stop.isPrefixOf cs then some ([c], cs.drop stop.length)
    else
      match lazyUpTo stop n cs with
      | some (ct, r) => some (c :: ct, r)
      | none => none

/-- Matcher for `__TECH_([A-Z])__` → `\1`. -/
def mTechRestore : Mtch := fun s =>
  if (("__TECH_").data).isPrefixOf s then
    match s.drop 7 with
    | l :: rest =>
      if isUpperC l then
        if (("__").data).isPrefixOf rest then some ([l], rest.drop 2) else none
      else none
    | [] => none
  else none

/-- Matcher for `__PROTECT_ls_(.+?)__` → `ls\1`. -/
def mProtectRestore (ls : List Char) : Mtch := fun s =>
  let tag := ("__PROTECT_").data ++ ls ++ ['_']
  if tag.isPrefixOf s then
    let r0 := s.drop tag.length
    match lazyUpTo (("__").data) r0.length r0 with
    | some (ct, rest) => some (ls ++ ct, rest)
    | none => none
  else none

/-- The function `normalize_standalone_letters` of `src/app.py`: protect `T細胞`-style
abbreviations, protect `(jp)(letter)(suffix)` technical terms, repeatedly convert
standalone letters, then restore the protected text (the final restore pass is
duplicated in the source and kept here). -/
def normalize_standalone_letters (t : List Char) : List Char :=
  let r := protectLetters.foldl (fun acc ls => subst (mProtect ls) acc) t
  let r := subst mTech r
  let r := nslLoop r
  let r := subst mTechRestore r
  let r := protectLetters.foldl (fun acc ls => subst (mProtectRestore ls) acc) r
  let r := protectLetters.foldl (fun acc ls => subst (mProtectRestore ls) acc) r
  r

/-- The function `normalize_blanks`: the eleven blank-idiom substitutions in order,
then the standalone-letter pass. -/
def normalize_blanks (t : List Char) : List Char :=
  normalize_standalone_letters (blankMatchers.foldl (fun acc m => subst m acc) t)

/-- The optional sentence-final punctuation class `[。？?]?` of `QUESTION_END_PATTERNS`. -/
def qEndOpts : List Char := ['。', '？', '?']

/-- The ten `QUESTION_END_PATTERNS` of the source, in order; each maps to `はなにか。`. -/
def qeTable : List (List Char) :=
  [("は何でしょうか").data, ("は何ですか").data, ("は何であろうか").data, ("は何であるか").data,
   ("は何か").data, ("はなんでしょうか").data, ("はなんですか").data, ("はなんであろうか").data,
   ("はなんであるか").data, ("はなんか").data]

/-- The canonical interrogative ending `はなにか。`. -/
def naniKa : List Char := ("はなにか。").data

/-- The eighteen `DESU_MASU_PATTERNS` of the source, in order. -/
def desuTable : List (List Char × List Char) :=
  [(("でしょうか").data, ("であろうか").data), (("ましょう").data, ("よう").data),
   (("ません").data, ("ない").data), (("ました").data, ("た").data),
   (("ています").data, ("ている").data), (("てきます").data, ("てくる").data),
   (("ております").data, ("ている").data), (("されています").data, ("されている").data),
   (("なっています").data, ("なっている").data), (("います").data, ("いる").data),
   (("あります").data, ("ある").data), (("きます").data, ("くる").data),
   (("します").data, ("する").data), (("ですが").data, ("であるが").data),
   (("ですので").data, ("であるので").data), (("ですから").data, ("であるから").data),
   (("です").data, ("である").data), (("ます").data, ("る").data)]

/-- The function `convert_desu_masu`: apply the question-ending table in full, then
the politeness table, in the order the source declares them. -/
def convert_desu_masu (t : List Char) : List Char :=
  desuTable.foldl (fun acc p => subst (mLit p.1 [] p.2) acc)
    (qeTable.foldl (fun acc lit => subst (mLit lit qEndOpts naniKa) acc) t)

/-- Bold markup matcher `\*\*(.+?)\*\*` → `\1`. -/
def mBold : Mtch := fun s =>
  match s with
  | '*' :: '*' :: rest =>
    match lazyUpTo ['*', '*'] rest.length rest with
    | some (ct, r) => some (ct, r)
    | none => none
  | _ => none

/-- Italic markup matcher `\*(.+?)\*` → `\1`. -/
def mItalic : Mtch := fun s =>
  match s with
  | '*' :: rest =>
    match lazyUpTo ['*'] rest.length rest with
    | some (ct, r) => some (ct, r)
    | none => none
  | _ => none

/-- Matcher for the source's `,.` pattern: in a regex the dot matches any character
except a newline, so this is a comma followed by any non-newline character. -/
def mCommaDot : Mtch := fun s =>
  match s with
  | ',' :: c :: rest => if c = '\n' then none else some (['.'], rest)
  | _ => none

/-- Run matcher for a character class, `[…]+` → `rep` (greedy). -/
def mClassRun (cls : Char → Bool) (rep : List Char) : Mtch := fun s =>
  match s with
  | c :: _ =>
    if cls c then
      let run := s.takeWhile cls
      some (rep, s.drop run.length)
    else none
  | [] => none

/-- Index of the last newline in a list, if any. -/
def lastNl : List Char → Option Nat
  | [] => none
  | c :: cs =>
    match lastNl cs with
    | some j => some (j + 1)
    | none => if c = '\n' then some 0 else none

/-- Matcher for `\n\s*\n` → `\n` (greedy `\s*`, backtracking to the last newline in
the following whitespace run). -/
def mNlRun : Mtch := fun s =>
  match s with
  | '\n' :: rest =>
    let run := rest.takeWhile isWsC
    match lastNl run with
    | some j => some (['\n'], rest.drop (j + 1))
    | none => none
  | _ => none

/-- Python `str.strip()`: drop whitespace from both ends. -/
def pyStrip (s : List Char) : List Char :=
  ((s.dropWhile isWsC).reverse.dropWhile isWsC).reverse

/-- The function `clean_text`: emphasis stripping, punctuation collapses, whitespace
collapse, strip, and blank-line collapse, in source order. -/
def clean_text (t : List Char) : List Char :=
  let r := subst mBold t
  let r := subst mItalic r
  let r := subst (mLit [',', '。'] [] ['。']) r
  let r := subst (mLit ['、', '。'] [] ['。']) r
  let r := subst mCommaDot r
  let r := subst (mLit [',', '、'] [] ['、']) r
  let r := subst (mClassRun (fun c => c = ' ' ∨ c = '　') [' ']) r
  let r := subst (mClassRun (fun c => c = '、' ∨ c = '，') ['、']) r
  let r := subst (mClassRun (fun c => c = '。' ∨ c = '．') ['。']) r
  let r := pyStrip r
  subst mNlRun r

/-- Fuel-driven count of non-overlapping occurrences, Python `str.count` semantics. -/
def countSubGo (pat : List Char) : Nat → List Char → Nat
  | 0, _ => 0
  | _ + 1, [] => 0
  | n + 1, c :: cs =>
    if pat.isPrefixOf (c :: cs) then 1 + countSubGo pat n ((c :: cs).drop pat.length)
    else countSubGo pat n cs

/-- Number of non-overlapping occurrences of `pat` (assumed non-empty). -/
def countSub (pat s : List Char) : Nat := countSubGo pat s.length s

/-- Fuel-driven single replacement, Python `str.replace(pat, rep, 1)` semantics. -/
def replaceOnceGo (pat rep : List Char) : Nat → List Char → List Char
  | 0, s => s
  | _ + 1, [] => []
  | n + 1, c :: cs =>
    if pat.isPrefixOf (c :: cs) then rep ++ (c :: cs).drop pat.length
    else c :: replaceOnceGo pat rep n cs

/-- Replacement of the leftmost occurrence of `pat` by `rep`, if any. -/
def replaceOnce (pat rep s : List Char) : List Char := replaceOnceGo pat rep s.length s

/-- The label alphabet `ABCDEFGHIJKLMNOPQRSTUVWXYZ`. -/
def labelsStr : List Char := ("ABCDEFGHIJKLMNOPQRSTUVWXYZ").data

/-- The rendered labeled blank `（　　X　　）` for label index `i`. -/
def labelBlank (i : Nat) : List Char :=
  '（' :: '　' :: '　' :: labelsStr.getD i 'A' :: '　' :: '　' :: ['）']

/-- The unlabeled wide blank `（　　　　　）` used when there is exactly one blank. -/
def singleBlank : List Char := ("（　　　　　）").data

/-- The labelling loop of `format_blanks`: `k` iterations of
`if i < 26: result = result.replace(marker, labeled-blank-i, 1)`. -/
def fbGo (t : List Char) : Nat → List Char
  | 0 => t
  | k + 1 =>
    let r := fbGo t k
    if k < 26 then replaceOnce marker (labelBlank k) r else r

/-- The function `format_blanks` of `src/app.py`. -/
def format_blanks (t : List Char) (n : Nat) : List Char :=
  if n = 0 then t
  else if n = 1 then subst (mLit marker [] singleBlank) t
  else fbGo t n

/-- Strip of the leading `^正解[：:]\s*` from an answer. -/
def stripSeikai (s : List Char) : List Char :=
  match s with
  | '正' :: '解' :: c :: rest => if c = '：' ∨ c = ':' then rest.dropWhile isWsC else s
  | _ => s

/-- Python `str.split('\n')` on a character list. -/
def splitNl : List Char → List (List Char)
  | [] => [[]]
  | c :: cs =>
    if c = '\n' then [] :: splitNl cs
    else
      match splitNl cs with
      | [] => [[c]]
      | l :: ls => (c :: l) :: ls

/-- The letter assigned by `circled_to_alpha` to a circled-number glyph. -/
def circledLabel (c : Char) : Char := labelsStr.getD (c.toNat - 0x2460) 'A'

/-- The separator class `[.\s:：\t]` of the multi-line parsers. -/
def isSepML (c : Char) : Bool := c = '.' || isWsC c || c = ':' || c = '：'

/-- The separator class `[.\s:：\t)）]` of the multi-line number parser. -/
def isSepNum (c : Char) : Bool := isSepML c || c = ')' || c = '）'

/-- The single-character separator class `[.．:：\t]` of the single-line parsers. -/
def isSepPt (c : Char) : Bool := c = '.' || c = '．' || c = ':' || c = '：' || c = '\t'

/-- Match of `^([①-⑳])[.\s:：\t]*(.+)$` on a newline-free line, with the greedy
separator run backtracking one character when nothing would remain for `(.+)`. -/
def matchCircledLine (line : List Char) : Option (Char × List Char) :=
  match line with
  | c :: rest =>
    if isCircledC c then
      let r2 := rest.dropWhile isSepML
      if r2 ≠ [] then some (c, r2)
      else
        match rest.getLast? with
        | some x => some (c, [x])
        | none => none
    else none
  | [] => none

/-- Decimal value of a digit list that is a key of `num_to_alpha` (the strings
`"1"`–`"26"`, without leading zeros), if any. -/
def numKey (ds : List Char) : Option Nat :=
  match ds with
  | [d] => if isDigitC d ∧ d ≠ '0' then some (d.toNat - 0x30) else none
  | [d, e] =>
    if isDigitC d ∧ isDigitC e ∧ d ≠ '0' then
      let n := 10 * (d.toNat - 0x30) + (e.toNat - 0x30)
      if n ≤ 26 then some n else none
    else none
  | _ => none

/-- Match of `^([0-9]+)[.\s:：\t)）]*(.+)$` on a newline-free line: greedy digits and
separators, backtracking first the separator run and then the digit run. -/
def matchNumLine (line : List Char) : Option (List Char × List Char) :=
  let ds := line.takeWhile isDigitC
  if ds = [] then none
  else
    let rest := line.drop ds.length
    let r2 := rest.dropWhile isSepNum
    if r2 ≠ [] then some (ds, r2)
    else
      match rest.getLast? with
      | some x => some (ds, [x])
      | none =>
        if 2 ≤ ds.length then
          match ds.getLast? with
          | some x => some (ds.dropLast, [x])
          | none => none
        else none

/-- Match of `^([A-Za-z])[.\s:：\t]+(.+)$` on a newline-free line. -/
def matchLetterLine (line : List Char) : Option (Char × List Char) :=
  match line with
  | c :: rest =>
    if isAlphaC c then
      let sep := rest.takeWhile isSepML
      if sep = [] then none
      else
        let r2 := rest.drop sep.length
        if r2 ≠ [] then some (c, r2)
        else if 2 ≤ sep.length then
          match rest.getLast? with
          | some x => some (c, [x])
          | none => none
        else none
    else none
  | [] => none

/-- One line of the multi-line answer parser, appending to the accumulated parts. -/
def mlLine (parts : List (List Char)) (line0 : List Char) : List (List Char) :=
  let line := pyStrip line0
  if line = [] then parts
  else
    match matchCircledLine line with
    | some (c, v) => parts ++ [circledLabel c :: '.' :: ' ' :: pyStrip v]
    | none =>
      match matchNumLine line with
      | some (ds, v) =>
        let lbl :=
          match numKey ds with
          | some n => labelsStr.getD (n - 1) 'A'
          | none => if parts.length < 26 then labelsStr.getD parts.length 'A' else 'A'
        parts ++ [lbl :: '.' :: ' ' :: pyStrip v]
      | none =>
        match matchLetterLine line with
        | some (c, v) => parts ++ [upperC c :: '.' :: ' ' :: pyStrip v]
        | none =>
          if parts.length < 26 then parts ++ [labelsStr.getD parts.length 'A' :: '.' :: ' ' :: line]
          else parts

/-- Lookahead `(?=\s*[①-⑳]|$)` (the scanned text contains no newline, so `$` is the
end of the text). -/
def lkCircled (r : List Char) : Bool :=
  (match r.dropWhile isWsC with
   | c :: _ => isCircledC c
   | [] => false) || r.isEmpty

/-- Lookahead `(?=\s*[,、]\s*[A-Za-z][.．:：\t]|$)` of the single-line comma parser. -/
def lkComma (r : List Char) : Bool :=
  (match r.dropWhile isWsC with
   | c :: cs =>
     (c = ',' || c = '、') &&
       (match cs.dropWhile isWsC with
        | l :: p :: _ => isAlphaC l && isSepPt p
        | _ => false)
   | [] => false) || r.isEmpty

/-- Lookahead `(?=\s*[A-Za-z][.．:：\t]|$)` of the single-line space parser. -/
def lkSpace (r : List Char) : Bool :=
  (match r.dropWhile isWsC with
   | l :: p :: _ => isAlphaC l && isSepPt p
   | _ => false) || r.isEmpty

/-- Lazy value search: the shortest non-empty value whose characters satisfy `ok`,
followed by a position where `lk` holds; returns the value and the rest. -/
def findVal (ok : Char → Bool) (lk : List Char → Bool) : List Char → Option (List Char × List Char)
  | [] => none
  | c :: cs =>
    if ok c then
      if lk cs then some ([c], cs)
      else
        match findVal ok lk cs with
        | some (v, r) => some (c :: v, r)
        | none => none
    else none

/-- Backtracking of a greedy separator run when the lazy value found nothing after it:
try end positions `e, e-1, …, 1` inside the run; the value is then the single
character of the run just before the end position. -/
def sepBack (lk : List Char → Bool) (rest : List Char) : Nat → Option (List Char × List Char)
  | 0 => none
  | e + 1 =>
    let r := rest.drop (e + 1)
    if lk r then some ([rest.getD e ' '], r) else sepBack lk rest e

/-- Match of `[.\s:：]*([^①-⑳]+?)(?=\s*[①-⑳]|$)` after a circled glyph: greedy
separator run, then the lazy value, backtracking into the run if needed. -/
def circledTail (rest : List Char) : Option (List Char × List Char) :=
  let sep := rest.takeWhile isSepML
  match findVal (fun c => !isCircledC c) lkCircled (rest.drop sep.length) with
  | some (v, r) => some (v, r)
  | none => sepBack lkCircled rest sep.length

/-- Generic `re.findall` scan: at each position whose character satisfies `start`, a
successful tail match yields a pair and the scan resumes after the matched value. -/
def scanGo (start : Char → Bool) (tl : List Char → Option (List Char × List Char)) :
    Nat → List Char → List (Char × List Char)
  | 0, _ => []
  | _ + 1, [] => []
  | n + 1, c :: cs =>
    if start c then
      match tl cs with
      | some (v, r) => (c, v) :: scanGo start tl n r
      | none => scanGo start tl n cs
    else scanGo start tl n cs

/-- All matches of the single-line circled pattern. -/
def slCircled (s : List Char) : List (Char × List Char) :=
  scanGo isCircledC circledTail s.length s

/-- Match of `[.．:：\t]\s*(.+?)(?=…)` after a letter: one separator character, a
greedy whitespace run, then the lazy value with lookahead `lk` and value class `ok`. -/
def letterTail (ok : Char → Bool) (lk : List Char → Bool) (rest0 : List Char) :
    Option (List Char × List Char) :=
  match rest0 with
  | p :: rest =>
    if isSepPt p then
      let ws := rest.takeWhile isWsC
      match findVal ok lk (rest.drop ws.length) with
      | some (v, r) => some (v, r)
      | none => sepBack lk rest ws.length
    else none
  | [] => none

/-- All matches of `([A-Za-z])[.．:：\t]\s*(.+?)(?=\s*[,、]\s*[A-Za-z][.．:：\t]|$)`. -/
def slComma (s : List Char) : List (Char × List Char) :=
  scanGo isAlphaC (letterTail (fun _ => true) lkComma) s.length s

/-- All matches of `([A-Za-z])[.．:：\t]\s*([^A-Za-z]+?)(?=\s*[A-Za-z][.．:：\t]|$)`. -/
def slSpace (s : List Char) : List (Char × List Char) :=
  scanGo isAlphaC (letterTail (fun c => !isAlphaC c) lkSpace) s.length s

/-- Bracket token `__BRACKET_i__`. -/
def brToken (i : Nat) : List Char :=
  ("__BRACKET_").data ++ Nat.toDigits 10 i ++ ("__").data

/-- One protection pass for a bracket pair: replace each `o[^c]*c` span by a numbered
token, carrying the token counter and the protected contents. -/
def protectGo (o cl : Char) : Nat → List Char → Nat → List (List Char) →
    List Char × Nat × List (List Char)
  | 0, s, i, acc => (s, i, acc)
  | _ + 1, [], i, acc => ([], i, acc)
  | n + 1, c :: cs, i, acc =>
    if c = o then
      let ct := cs.takeWhile (fun x => x ≠ cl)
      match cs.drop ct.length with
      | x :: r3 =>
        if x = cl then
          let (t, i2, a2) := protectGo o cl n r3 (i + 1) (acc ++ [c :: (ct ++ [cl])])
          (brToken i ++ t, i2, a2)
        else
          let (t, i2, a2) := protectGo o cl n cs i acc
          (c :: t, i2, a2)
      | [] =>
        let (t, i2, a2) := protectGo o cl n cs i acc
        (c :: t, i2, a2)
    else
      let (t, i2, a2) := protectGo o cl n cs i acc
      (c :: t, i2, a2)

/-- The two bracket-protection passes of the space-separated strategy: half-width
parentheses first, then full-width, sharing one token counter. -/
def protectBrackets (s : List Char) : List Char × List (List Char) :=
  let (t1, i1, a1) := protectGo '(' ')' s.length s 0 []
  let (t2, _, a2) := protectGo '（' '）' t1.length t1 i1 a1
  (t2, a2)

/-- Replacement of every occurrence of `pat` by `rep` (Python `str.replace`). -/
def replaceAll (pat rep s : List Char) : List Char := subst (mLit pat [] rep) s

/-- Restoration of protected bracket spans into an extracted value, in token order. -/
def restoreBrackets (contents : List (List Char)) (v : List Char) : List Char :=
  (List.range contents.length).foldl
    (fun acc i => replaceAll (brToken i) (contents.getD i []) acc) v

/-- Trailing `",、"` strip applied to single-line values (`str.rstrip(",、")`). -/
def rstripComma (v : List Char) : List Char :=
  (v.reverse.dropWhile (fun c => c = ',' ∨ c = '、')).reverse

/-- The fixed wide separator `　　` joining answer parts. -/
def wideSep : List Char := ['　', '　']

/-- Join of the parts list with the wide separator (Python `'　　'.join(parts)`). -/
def joinParts : List (List Char) → List Char
  | [] => []
  | [p] => p
  | p :: ps => p ++ wideSep ++ joinParts ps

/-- The fixed `正解：` answer tag. -/
def seikai : List Char := ("正解：").data

/-- The function `format_answer` of `src/app.py`: strip, then the zero-, one- and
many-blank branches, the latter trying the multi-line parser and the three
single-line strategies in priority order with the unparsed text as fallback. -/
def format_answer (answer0 : List Char) (n : Nat) : List Char :=
  let answer := pyStrip answer0
  if n = 0 then seikai ++ answer
  else if n = 1 then seikai ++ stripSeikai answer
  else
    let a := stripSeikai answer
    let lines := splitNl (pyStrip a)
    if 2 ≤ lines.length then
      let parts := lines.foldl mlLine []
      if parts ≠ [] then seikai ++ joinParts parts else seikai ++ a
    else
      let mc := slCircled a
      if mc ≠ [] then
        seikai ++ joinParts (mc.map fun p =>
          circledLabel p.1 :: '.' :: ' ' :: rstripComma (pyStrip p.2))
      else
        let ms := slComma a
        if ms ≠ [] then
          seikai ++ joinParts (ms.map fun p =>
            upperC p.1 :: '.' :: ' ' :: rstripComma (pyStrip p.2))
        else
          let pr := protectBrackets a
          let ms2 := slSpace pr.1
          if ms2 ≠ [] then
            seikai ++ joinParts (ms2.map fun p =>
              upperC p.1 :: '.' :: ' ' :: restoreBrackets pr.2 (pyStrip p.2))
          else seikai ++ a

/-- The fixed instruction line prepended when at least one blank exists. -/
def instructionLine : List Char := ("以下の記述の空欄に適切な語句を記入せよ。\n").data

/-- Result record of `format_question`. -/
structure FQResult where
  question : List Char
  answer : List Char
  blank_count : Nat
deriving DecidableEq

/-- The orchestrator `format_question` of `src/app.py`. -/
def format_question (q a : List Char) : FQResult :=
  let normalized := normalize_blanks q
  let n := countSub marker normalized
  let converted := convert_desu_masu normalized
  let cleaned := clean_text converted
  let formatted := format_blanks cleaned n
  let fq := if 0 < n then instructionLine ++ formatted else formatted
  { question := fq, answer := format_answer a n, blank_count := n }

/-! ### Fuel irrelevance

The scanners take fuel only to be structurally recursive; with fuel at least the
length of the input the result is independent of it. -/

theorem substGo_fuel (m : Mtch) (hm : Proper m) :
    ∀ (n₁ : Nat), ∀ (n₂ : Nat) (s : List Char), s.length ≤ n₁ → s.length ≤ n₂ →
      substGo m n₁ s = substGo m n₂ s := by
  intro n₁
  induction n₁ with
  | zero =>
    intro n₂ s h1 _
    have hs : s = [] := List.eq_nil_of_length_eq_zero (Nat.le_zero.mp h1)
    subst hs
    cases n₂ <;> rfl
  | succ k ih =>
    intro n₂ s h1 h2
    cases s with
    | nil => cases n₂ <;> rfl
    | cons c cs =>
      cases n₂ with
      | zero => exact absurd h2 (by simp)
      | succ j =>
        simp only [substGo]
        cases hmc : m (c :: cs) with
        | some pr =>
          have hlt : pr.2.length < (c :: cs).length := hm _ _ _ (by rw [hmc])
          have hk : pr.2.length ≤ k := by
            have := Nat.lt_of_lt_of_le hlt h1
            omega
          have hj : pr.2.length ≤ j := by
            have := Nat.lt_of_lt_of_le hlt h2
            omega
          simp only [ih j pr.2 hk hj]
        | none =>
          have hk : cs.length ≤ k := by simp at h1; omega
          have hj : cs.length ≤ j := by simp at h2; omega
          simp only [ih j cs hk hj]

theorem substGo_eq_subst (m : Mtch) (hm : Proper m) (n : Nat) (s : List Char)
    (h : s.length ≤ n) : substGo m n s = subst m s :=
  substGo_fuel m hm n s.length s h (Nat.le_refl _)

theorem countSubGo_fuel (pat : List Char) (hp : pat ≠ []) :
    ∀ (n₁ : Nat), ∀ (n₂ : Nat) (s : List Char), s.length ≤ n₁ → s.length ≤ n₂ →
      countSubGo pat n₁ s = countSubGo pat n₂ s := by
  intro n₁
  induction n₁ with
  | zero =>
    intro n₂ s h1 _
    have hs : s = [] := List.eq_nil_of_length_eq_zero (Nat.le_zero.mp h1)
    subst hs
    cases n₂ <;> rfl
  | succ k ih =>
    intro n₂ s h1 h2
    cases s with
    | nil => cases n₂ <;> rfl
    | cons c cs =>
      cases n₂ with
      | zero => exact absurd h2 (by simp)
      | succ j =>
        simp only [countSubGo]
        cases hpre : pat.isPrefixOf (c :: cs) with
        | true =>
          simp only [if_true]
          have hlen : pat.length ≤ (c :: cs).length :=
            (List.isPrefixOf_iff_prefix.mp hpre).length_le
          have hplen : 0 < pat.length := List.length_pos.mpr hp
          have hd : ((c :: cs).drop pat.length).length ≤ k := by
            rw [List.length_drop]
            simp only [List.length_cons] at h1 ⊢
            omega
          have hd2 : ((c :: cs).drop pat.length).length ≤ j := by
            rw [List.length_drop]
            simp only [List.length_cons] at h2 ⊢
            omega
          rw [ih j _ hd hd2]
        | false =>
          simp only [Bool.false_eq_true, if_false]
          have hk : cs.length ≤ k := by simp only [List.length_cons] at h1; omega
          have hj : cs.length ≤ j := by simp only [List.length_cons] at h2; omega
          rw [ih j cs hk hj]

theorem countSubGo_eq_countSub (pat : List Char) (hp : pat ≠ []) (n : Nat) (s : List Char)
    (h : s.length ≤ n) : countSubGo pat n s = countSub pat s :=
  countSubGo_fuel pat hp n s.length s h (Nat.le_refl _)

theorem replaceOnceGo_fuel (pat rep : List Char) :
    ∀ (n₁ : Nat), ∀ (n₂ : Nat) (s : List Char), s.length ≤ n₁ → s.length ≤ n₂ →
      replaceOnceGo pat rep n₁ s = replaceOnceGo pat rep n₂ s := by
  intro n₁
  induction n₁ with
  | zero =>
    intro n₂ s h1 _
    have hs : s = [] := List.eq_nil_of_length_eq_zero (Nat.le_zero.mp h1)
    subst hs
    cases n₂ <;> rfl
  | succ k ih =>
    intro n₂ s h1 h2
    cases s with
    | nil => cases n₂ <;> rfl
    | cons c cs =>
      cases n₂ with
      | zero => exact absurd h2 (by simp)
      | succ j =>
        simp only [replaceOnceGo]
        cases hpre : pat.isPrefixOf (c :: cs) with
        | true => simp only [if_true]
        | false =>
          simp only [Bool.false_eq_true, if_false]
          have hk : cs.length ≤ k := by simp only [List.length_cons] at h1; omega
          have hj : cs.length ≤ j := by simp only [List.length_cons] at h2; omega
          rw [ih j cs hk hj]

theorem replaceOnceGo_eq (pat rep : List Char) (n : Nat) (s : List Char)
    (h : s.length ≤ n) : replaceOnceGo pat rep n s = replaceOnce pat rep s :=
  replaceOnceGo_fuel pat rep n s.length s h (Nat.le_refl _)

/-! ### Facts about the literal matcher -/

theorem mLit_proper (lit opts rep : List Char) (hl : lit ≠ []) :
    Proper (mLit lit opts rep) := by
  intro s r rest h
  have hplen : 0 < lit.length := List.length_pos.mpr hl
  unfold mLit at h
  cases hpre : lit.isPrefixOf s with
  | false => rw [hpre] at h; simp at h
  | true =>
    rw [hpre] at h
    simp only [if_true] at h
    have hlen : lit.length ≤ s.length :=
      (List.isPrefixOf_iff_prefix.mp hpre).length_le
    have hdl : (s.drop lit.length).length = s.length - lit.length := List.length_drop _ _
    cases hd : s.drop lit.length with
    | nil =>
      rw [hd] at h
      have h2 : some (rep, ([] : List Char)) = some (r, rest) := h
      have hr : rest = [] := by cases h2; rfl
      subst hr
      simp only [List.length_nil]
      omega
    | cons x xs =>
      have hx : xs.length + 1 = s.length - lit.length := by
        rw [← hdl, hd, List.length_cons]
      rw [hd] at h
      have h2 : (if opts.contains x = true then some (rep, xs) else some (rep, x :: xs))
          = some (r, rest) := h
      cases hco : opts.contains x with
      | true =>
        rw [hco] at h2
        simp only [if_true] at h2
        have hr : rest = xs := by cases h2; rfl
        subst hr
        omega
      | false =>
        rw [hco] at h2
        simp only [Bool.false_eq_true, if_false] at h2
        have hr : rest = x :: xs := by cases h2; rfl
        subst hr
        simp only [List.length_cons]
        omega

theorem mLit_some (lit opts rep : List Char) {s r rest : List Char}
    (h : mLit lit opts rep s = some (r, rest)) :
    r = rep ∧ (s = lit ++ rest ∨ ∃ o, o ∈ opts ∧ s = lit ++ o :: rest) := by
  unfold mLit at h
  cases hpre : lit.isPrefixOf s with
  | false => rw [hpre] at h; simp at h
  | true =>
    rw [hpre] at h
    simp only [if_true] at h
    have hsplit : lit ++ s.drop lit.length = s := by
      have ht := List.prefix_iff_eq_take.mp (List.isPrefixOf_iff_prefix.mp hpre)
      conv_rhs => rw [← List.take_append_drop lit.length s, ← ht]
    cases hd : s.drop lit.length with
    | nil =>
      rw [hd] at h
      have h2 : some (rep, ([] : List Char)) = some (r, rest) := h
      have hr : r = rep ∧ rest = [] := by cases h2; exact ⟨rfl, rfl⟩
      obtain ⟨rfl, rfl⟩ := hr
      refine ⟨rfl, Or.inl ?_⟩
      rw [← hsplit, hd]
    | cons x xs =>
      rw [hd] at h
      have h2 : (if opts.contains x = true then some (rep, xs) else some (rep, x :: xs))
          = some (r, rest) := h
      cases hco : opts.contains x with
      | true =>
        rw [hco] at h2
        simp only [if_true] at h2
        have hr : r = rep ∧ rest = xs := by cases h2; exact ⟨rfl, rfl⟩
        obtain ⟨rfl, rfl⟩ := hr
        refine ⟨rfl, Or.inr ⟨x, by simpa using hco, ?_⟩⟩
        rw [← hsplit, hd]
      | false =>
        rw [hco] at h2
        simp only [Bool.false_eq_true, if_false] at h2
        have hr : r = rep ∧ rest = x :: xs := by cases h2; exact ⟨rfl, rfl⟩
        obtain ⟨rfl, rfl⟩ := hr
        refine ⟨rfl, Or.inl ?_⟩
        rw [← hsplit, hd]
/-! ### Termination of the standalone-letter re-scanning loop -/

/-- Indicator of a standalone-letter match at a three-character window. -/
def ind (x y z : Char) : Nat := if isBeforeC x && isUpperC y && isAfterC z then 1 else 0

/-- Indicator of a match whose first character is `x` and whose remaining two
characters head the list. -/
def ind2 (x : Char) : List Char → Nat
  | y :: z :: _ => ind x y z
  | _ => 0

theorem countConv_cons (x : Char) (t : List Char) :
    countConv (x :: t) = ind2 x t + countConv t := by
  match t with
  | [] => rfl
  | [y] => rfl
  | y :: z :: r => rfl

theorem before_not_upper {c : Char} (h : isBeforeC c = true) : isUpperC c = false := by
  unfold isBeforeC isJpC at h
  simp only [Bool.or_eq_true, decide_eq_true_eq] at h
  unfold isUpperC
  simp only [decide_eq_false_iff_not]
  rcases h with (h | h) | h
  · omega
  · subst h; decide
  · subst h; decide

theorem after_not_upper {c : Char} (h : isAfterC c = true) : isUpperC c = false := by
  unfold isAfterC isJpC at h
  simp only [Bool.or_eq_true, decide_eq_true_eq] at h
  unfold isUpperC
  simp only [decide_eq_false_iff_not]
  rcases h with (h | h) | h
  · omega
  · subst h; decide
  · subst h; decide

theorem ind_mid_not_upper {x y z : Char} (h : isUpperC y = false) : ind x y z = 0 := by
  unfold ind
  simp [h]

theorem passStep_headq : ∀ s : List Char, (passStep s).head? = s.head? := by
  intro s
  match s with
  | [] => rfl
  | [x] => rfl
  | [x, y] => rfl
  | b :: l :: a :: rest =>
    by_cases hc : (isBeforeC b && isUpperC l && isAfterC a) = true
    · simp [passStep, hc]
    · simp only [passStep]
      rw [if_neg hc]
      rfl

theorem ind2_passStep (x : Char) : ∀ t : List Char, ind2 x (passStep t) = ind2 x t := by
  intro t
  match t with
  | [] => rfl
  | [y] => rfl
  | [y, z] => rfl
  | y :: z :: w :: r =>
    by_cases hc : (isBeforeC y && isUpperC z && isAfterC w) = true
    · have hy : isUpperC y = false := by
        have : isBeforeC y = true := by
          simp only [Bool.and_eq_true] at hc
          exact hc.1.1
        exact before_not_upper this
      simp only [passStep, hc, if_true]
      show ind x y '{' = ind2 x (y :: z :: w :: r)
      show ind x y '{' = ind x y z
      rw [ind_mid_not_upper hy, ind_mid_not_upper hy]
    · simp only [passStep]
      rw [if_neg hc]
      have hh := passStep_headq (z :: w :: r)
      cases hps : passStep (z :: w :: r) with
      | nil => rw [hps] at hh; simp at hh
      | cons z2 t2 =>
        rw [hps] at hh
        simp only [List.head?] at hh
        have hz : z2 = z := by injection hh
        subst hz
        rfl

theorem passStep_le_fuel : ∀ (n : Nat) (s : List Char), s.length ≤ n →
    countConv (passStep s) ≤ countConv s ∧
      (passStep s ≠ s → countConv (passStep s) < countConv s) := by
  intro n
  induction n with
  | zero =>
    intro s hn
    have hs : s = [] := List.eq_nil_of_length_eq_zero (Nat.le_zero.mp hn)
    subst hs
    exact ⟨Nat.le_refl _, fun h => absurd rfl h⟩
  | succ k ihn =>
  intro s hn
  match s with
  | [] => exact ⟨Nat.le_refl _, fun h => absurd rfl h⟩
  | [x] => exact ⟨Nat.le_refl _, fun h => absurd rfl h⟩
  | [x, y] => exact ⟨Nat.le_refl _, fun h => absurd rfl h⟩
  | b :: l :: a :: rest =>
    by_cases hc : (isBeforeC b && isUpperC l && isAfterC a) = true
    · have hrest := ihn rest (by simp only [List.length_cons] at hn; omega)
      have ha : isAfterC a = true := by
        simp only [Bool.and_eq_true] at hc
        exact hc.2
      have haup : isUpperC a = false := after_not_upper ha
      have hlhs : countConv (passStep (b :: l :: a :: rest)) =
          ind2 a rest + countConv (passStep rest) := by
        simp only [passStep, hc, if_true]
        show countConv
          (b :: '{' :: '{' :: 'B' :: 'L' :: 'A' :: 'N' :: 'K' :: '}' :: '}' :: a :: passStep rest)
          = _
        rw [countConv_cons, countConv_cons, countConv_cons, countConv_cons, countConv_cons,
          countConv_cons, countConv_cons, countConv_cons, countConv_cons, countConv_cons,
          countConv_cons]
        have h1 : ind2 b ('{' :: '{' :: 'B' :: 'L' :: 'A' :: 'N' :: 'K' :: '}' :: '}' :: a :: passStep rest) = 0 := by
          show ind b '{' '{' = 0
          exact ind_mid_not_upper (by decide)
        have h2 : ind2 '{' ('{' :: 'B' :: 'L' :: 'A' :: 'N' :: 'K' :: '}' :: '}' :: a :: passStep rest) = 0 := by
          show ind '{' '{' 'B' = 0
          exact ind_mid_not_upper (by decide)
        have h3 : ind2 '{' ('B' :: 'L' :: 'A' :: 'N' :: 'K' :: '}' :: '}' :: a :: passStep rest) = 0 := by
          show ind '{' 'B' 'L' = 0
          unfold ind
          simp [isBeforeC, isJpC]
        have h4 : ind2 'B' ('L' :: 'A' :: 'N' :: 'K' :: '}' :: '}' :: a :: passStep rest) = 0 := by
          show ind 'B' 'L' 'A' = 0
          unfold ind
          simp [isBeforeC, isJpC]
        have h5 : ind2 'L' ('A' :: 'N' :: 'K' :: '}' :: '}' :: a :: passStep rest) = 0 := by
          show ind 'L' 'A' 'N' = 0
          unfold ind
          simp [isBeforeC, isJpC]
        have h6 : ind2 'A' ('N' :: 'K' :: '}' :: '}' :: a :: passStep rest) = 0 := by
          show ind 'A' 'N' 'K' = 0
          unfold ind
          simp [isBeforeC, isJpC]
        have h7 : ind2 'N' ('K' :: '}' :: '}' :: a :: passStep rest) = 0 := by
          show ind 'N' 'K' '}' = 0
          unfold ind
          simp [isBeforeC, isJpC]
        have h8 : ind2 'K' ('}' :: '}' :: a :: passStep rest) = 0 := by
          show ind 'K' '}' '}' = 0
          exact ind_mid_not_upper (by decide)
        have h9 : ind2 '}' ('}' :: a :: passStep rest) = 0 := by
          show ind '}' '}' a = 0
          exact ind_mid_not_upper (by decide)
        have h10 : ind2 '}' (a :: passStep rest) = 0 := by
          cases hps : passStep rest with
          | nil => rfl
          | cons u v =>
            show ind '}' a u = 0
            exact ind_mid_not_upper haup
        rw [h1, h2, h3, h4, h5, h6, h7, h8, h9, h10, ind2_passStep]
        omega
      have hrhs : countConv (b :: l :: a :: rest) = 1 + (ind2 a rest + countConv rest) := by
        rw [countConv_cons, countConv_cons, countConv_cons]
        have hb : ind2 b (l :: a :: rest) = 1 := by
          show ind b l a = 1
          unfold ind
          rw [if_pos hc]
        have hl : ind2 l (a :: rest) = 0 := by
          cases rest with
          | nil => rfl
          | cons u v =>
            show ind l a u = 0
            exact ind_mid_not_upper haup
        rw [hb, hl]
        omega
      constructor
      · rw [hlhs, hrhs]
        have := hrest.1
        omega
      · intro _
        rw [hlhs, hrhs]
        have := hrest.1
        omega
    · have htail := ihn (l :: a :: rest) (by simp only [List.length_cons] at hn ⊢; omega)
      have hstep : passStep (b :: l :: a :: rest) = b :: passStep (l :: a :: rest) := by
        simp only [passStep]
        rw [if_neg hc]
      rw [hstep, countConv_cons, countConv_cons, ind2_passStep]
      constructor
      · have := htail.1
        omega
      · intro hne
        have hne2 : passStep (l :: a :: rest) ≠ l :: a :: rest := by
          intro he
          apply hne
          rw [he]
        have := htail.2 hne2
        omega

theorem passStep_le (s : List Char) :
    countConv (passStep s) ≤ countConv s ∧
      (passStep s ≠ s → countConv (passStep s) < countConv s) :=
  passStep_le_fuel s.length s (Nat.le_refl _)

theorem nslIter_fix : ∀ (n : Nat) (s : List Char), countConv s < n →
    passStep (nslIter n s) = nslIter n s := by
  intro n
  induction n with
  | zero => intro s h; exact absurd h (by omega)
  | succ k ih =>
    intro s h
    have hstep : nslIter (k + 1) s = if passStep s = s then s else nslIter k (passStep s) := rfl
    rw [hstep]
    by_cases he : passStep s = s
    · rw [if_pos he, he]
    · rw [if_neg he]
      apply ih
      have := (passStep_le s).2 he
      omega

/-- The repeated re-scanning pass reaches a fixpoint within its fuel. -/
theorem nslLoop_fix (s : List Char) : passStep (nslLoop s) = nslLoop s :=
  nslIter_fix (countConv s + 1) s (Nat.lt_succ_self _)

/-! ### Counting and replacing canonical markers

Lemmas describing `countSub marker` and `replaceOnce marker`; the replacement
strings of interest (the labeled blanks) start with `（`, contain no `{`, and so can
neither complete nor host a marker occurrence. -/

theorem marker_ne : marker ≠ [] := by decide

theorem countSub_nil : countSub marker [] = 0 := rfl

theorem countSub_cons_neg {c : Char} {cs : List Char}
    (h : marker.isPrefixOf (c :: cs) = false) :
    countSub marker (c :: cs) = countSub marker cs := by
  unfold countSub
  rw [List.length_cons]
  simp only [countSubGo, h, Bool.false_eq_true, if_false]

theorem countSub_cons_pos {s : List Char} (h : marker.isPrefixOf s = true) :
    countSub marker s = 1 + countSub marker (s.drop marker.length) := by
  cases s with
  | nil => simp [List.isPrefixOf, marker] at h
  | cons c cs =>
    unfold countSub
    rw [List.length_cons]
    simp only [countSubGo, h, if_true]
    congr 1
    apply countSubGo_eq_countSub marker marker_ne
    rw [List.length_drop]
    simp only [List.length_cons]
    have hm : marker.length = 9 := rfl
    rw [hm]
    omega

theorem replaceOnce_cons_neg {c : Char} {cs : List Char} (rep : List Char)
    (h : marker.isPrefixOf (c :: cs) = false) :
    replaceOnce marker rep (c :: cs) = c :: replaceOnce marker rep cs := by
  unfold replaceOnce
  rw [List.length_cons]
  simp only [replaceOnceGo, h, Bool.false_eq_true, if_false]

theorem replaceOnce_cons_pos {s : List Char} (rep : List Char)
    (h : marker.isPrefixOf s = true) :
    replaceOnce marker rep s = rep ++ s.drop marker.length := by
  cases s with
  | nil => simp [List.isPrefixOf, marker] at h
  | cons c cs =>
    unfold replaceOnce
    rw [List.length_cons]
    simp only [replaceOnceGo, h, if_true]

/-- No suffix of `u` begins a marker occurrence when followed by `v`. -/
def NoPre (u v : List Char) : Prop :=
  ∀ x y, u = x ++ y → y ≠ [] → marker.isPrefixOf (y ++ v) = false

/-- Replacement strings that cannot interact with marker occurrences. -/
def RepOK (rep : List Char) : Prop :=
  rep ≠ [] ∧ rep.headD '{' ∉ marker ∧ ∀ c ∈ rep, c ≠ '{'

theorem noPre_nil (v : List Char) : NoPre [] v := by
  intro x y hxy hy
  rcases List.append_eq_nil.mp hxy.symm with ⟨-, h2⟩
  exact absurd h2 hy

theorem noPre_cons {c : Char} {u v : List Char} (h : NoPre (c :: u) v) : NoPre u v := by
  intro x y hxy hy
  exact h (c :: x) y (by rw [hxy]; rfl) hy

theorem countSub_append_noPre : ∀ (u v : List Char), NoPre u v →
    countSub marker (u ++ v) = countSub marker v := by
  intro u
  induction u with
  | nil => intro v _; rfl
  | cons c u' ih =>
    intro v h
    have hp : marker.isPrefixOf ((c :: u') ++ v) = false := h [] (c :: u') rfl (by simp)
    rw [List.cons_append] at hp ⊢
    rw [countSub_cons_neg hp]
    exact ih v (noPre_cons h)

theorem countSub_noPre_zero {u v : List Char} (h : NoPre u v) : countSub marker u = 0 := by
  induction u with
  | nil => rfl
  | cons c u' ih =>
    have hp : marker.isPrefixOf ((c :: u') ++ v) = false := h [] (c :: u') rfl (by simp)
    have hp2 : marker.isPrefixOf (c :: u') = false := by
      cases hq : marker.isPrefixOf (c :: u') with
      | false => rfl
      | true =>
        have : marker <+: (c :: u') ++ v :=
          (List.isPrefixOf_iff_prefix.mp hq).trans (List.prefix_append _ _)
        rw [List.isPrefixOf_iff_prefix.mpr this] at hp
        cases hp
    rw [countSub_cons_neg hp2]
    exact ih (noPre_cons h)

theorem countSub_decomp : ∀ (t : List Char) (n : Nat), countSub marker t = n + 1 →
    ∃ pre post, t = pre ++ marker ++ post ∧ countSub marker post = n ∧
      NoPre pre (marker ++ post) ∧
      ∀ rep, replaceOnce marker rep t = pre ++ rep ++ post := by
  intro t
  induction t with
  | nil => intro n h; rw [countSub_nil] at h; cases h
  | cons c cs ih =>
    intro n h
    cases hp : marker.isPrefixOf (c :: cs) with
    | true =>
      have hsplit : marker ++ (c :: cs).drop marker.length = c :: cs := by
        have ht := List.prefix_iff_eq_take.mp (List.isPrefixOf_iff_prefix.mp hp)
        conv_rhs => rw [← List.take_append_drop marker.length (c :: cs), ← ht]
      refine ⟨[], (c :: cs).drop marker.length, ?_, ?_, noPre_nil _, ?_⟩
      · rw [List.nil_append, hsplit]
      · have h2 := countSub_cons_pos hp
        omega
      · intro rep
        rw [replaceOnce_cons_pos rep hp, List.nil_append]
    | false =>
      have h2 : countSub marker cs = n + 1 := by
        rw [← countSub_cons_neg hp]
        exact h
      obtain ⟨pre, post, ht, hcnt, hnp, hro⟩ := ih n h2
      refine ⟨c :: pre, post, ?_, hcnt, ?_, ?_⟩
      · rw [List.cons_append, List.cons_append, ← ht]
      · intro x y hxy hy
        cases x with
        | nil =>
          have hyv : y = c :: pre := by simpa using hxy.symm
          subst hyv
          have heq : (c :: pre) ++ (marker ++ post) = c :: cs := by
            rw [List.cons_append, ← List.append_assoc, ← ht]
          rw [heq]
          exact hp
        | cons x0 xtl =>
          have hc2 : c = x0 ∧ pre = xtl ++ y := by
            rw [List.cons_append] at hxy
            injection hxy with ha hb
            exact ⟨ha, hb⟩
          exact hnp xtl y hc2.2 hy
      · intro rep
        rw [replaceOnce_cons_neg rep hp, hro rep, List.cons_append, List.cons_append]

theorem noPre_transfer {pre post : List Char} (rep : List Char)
    (h : NoPre pre (marker ++ post)) (hrep : RepOK rep) :
    ∀ post', NoPre pre (rep ++ post') := by
  obtain ⟨hne, hhd, -⟩ := hrep
  intro post' x y hxy hy
  cases hq : marker.isPrefixOf (y ++ (rep ++ post')) with
  | false => rfl
  | true =>
    exfalso
    have horig := h x y hxy hy
    have hqp : marker <+: y ++ (rep ++ post') := List.isPrefixOf_iff_prefix.mp hq
    by_cases hlen : marker.length ≤ y.length
    · have hyp : marker <+: y := by
        have := List.prefix_iff_eq_take.mp hqp
        rw [List.take_append_eq_append_take, Nat.sub_eq_zero_of_le hlen,
          List.take_zero, List.append_nil] at this
        exact List.prefix_iff_eq_take.mpr this
      have : marker <+: y ++ (marker ++ post) := hyp.trans (List.prefix_append _ _)
      rw [List.isPrefixOf_iff_prefix.mpr this] at horig
      cases horig
    · push_neg at hlen
      have htake := List.prefix_iff_eq_take.mp hqp
      rw [List.take_append_eq_append_take] at htake
      have hylen : y.length ≤ marker.length := Nat.le_of_lt hlen
      rw [List.take_of_length_le hylen] at htake
      set z := (rep ++ post').take (marker.length - y.length) with hz
      have hz_ne : z ≠ [] := by
        intro hz0
        rw [hz0, List.append_nil] at htake
        have : marker.length = y.length := by rw [htake]
        omega
      have hz_head : z.headD '{' = rep.headD '{' := by
        rw [hz]
        cases hrp : rep with
        | nil => exact absurd hrp hne
        | cons r0 rtl =>
          have : marker.length - y.length ≠ 0 := by omega
          cases hmy : marker.length - y.length with
          | zero => exact absurd hmy this
          | succ k => simp [hrp]
      have hz_mem : z.headD '{' ∈ marker := by
        rw [htake]
        cases hzc : z with
        | nil => exact absurd hzc hz_ne
        | cons z0 ztl =>
          simp only [hzc, List.headD_cons]
          exact List.mem_append_right _ (by simp)
      rw [hz_head] at hz_mem
      exact hhd hz_mem

theorem countSub_append_headFree : ∀ (u v : List Char), (∀ c ∈ u, c ≠ '{') →
    countSub marker (u ++ v) = countSub marker v := by
  intro u
  induction u with
  | nil => intro v _; rfl
  | cons c u' ih =>
    intro v h
    have hp : marker.isPrefixOf ((c :: u') ++ v) = false := by
      cases hq : marker.isPrefixOf ((c :: u') ++ v) with
      | false => rfl
      | true =>
        exfalso
        have := List.prefix_iff_eq_take.mp (List.isPrefixOf_iff_prefix.mp hq)
        have hhd : marker.headD ' ' = c := by
          rw [this]
          rfl
        have : c = '{' := by
          rw [← hhd]
          rfl
        exact h c (by simp) this
    rw [List.cons_append] at hp ⊢
    rw [countSub_cons_neg hp]
    exact ih v (fun c hc => h c (by simp [hc]))

theorem replaceOnce_zero {t : List Char} (rep : List Char)
    (h : countSub marker t = 0) : replaceOnce marker rep t = t := by
  induction t with
  | nil => rfl
  | cons c cs ih =>
    cases hp : marker.isPrefixOf (c :: cs) with
    | true => rw [countSub_cons_pos hp] at h; omega
    | false =>
      rw [replaceOnce_cons_neg rep hp]
      rw [countSub_cons_neg hp] at h
      rw [ih h]

theorem countSub_replaceOnce {t : List Char} (rep : List Char) (hrep : RepOK rep) :
    countSub marker (replaceOnce marker rep t) = countSub marker t - 1 := by
  cases hn : countSub marker t with
  | zero => rw [replaceOnce_zero rep hn, hn]
  | succ n =>
    obtain ⟨pre, post, ht, hcnt, hnp, hro⟩ := countSub_decomp t n hn
    rw [hro rep, List.append_assoc]
    rw [countSub_append_noPre pre (rep ++ post) (noPre_transfer rep hnp hrep post)]
    rw [countSub_append_headFree rep post hrep.2.2]
    omega

theorem marker_not_prefix_of_head {c : Char} {w : List Char} (h : c ≠ '{') :
    marker.isPrefixOf (c :: w) = false := by
  have hb : (('{' : Char) == c) = false := beq_eq_false_iff_ne.mpr (fun he => h he.symm)
  show (('{' == c) && List.isPrefixOf (['{', 'B', 'L', 'A', 'N', 'K', '}', '}']) w) = false
  rw [hb, Bool.false_and]

theorem replaceOnce_append_noPre : ∀ (u : List Char) (w rep' : List Char), NoPre u w →
    replaceOnce marker rep' (u ++ w) = u ++ replaceOnce marker rep' w := by
  intro u
  induction u with
  | nil => intro w rep' _; rfl
  | cons c u' ih =>
    intro w rep' h
    have hp : marker.isPrefixOf ((c :: u') ++ w) = false := h [] (c :: u') rfl (by simp)
    rw [List.cons_append] at hp ⊢
    rw [replaceOnce_cons_neg rep' hp, ih w rep' (noPre_cons h)]
    rfl

theorem replaceOnce_append_headFree : ∀ (u : List Char) (w rep' : List Char),
    (∀ c ∈ u, c ≠ '{') →
    replaceOnce marker rep' (u ++ w) = u ++ replaceOnce marker rep' w := by
  intro u
  induction u with
  | nil => intro w rep' _; rfl
  | cons c u' ih =>
    intro w rep' h
    have hp : marker.isPrefixOf (c :: (u' ++ w)) = false :=
      marker_not_prefix_of_head (h c (by simp))
    rw [List.cons_append, replaceOnce_cons_neg rep' hp, ih w rep' (fun c hc => h c (by simp [hc]))]
    rfl

/-- The label character is always one of `A`–`Z`. -/
theorem labelChar_mem (i : Nat) : labelsStr.getD i 'A' ∈ labelsStr := by
  by_cases h : i < labelsStr.length
  · rw [List.getD_eq_getElem labelsStr 'A' h]
    exact List.getElem_mem h
  · rw [List.getD_eq_default labelsStr 'A' (by omega)]
    decide

theorem labelBlank_repOK (i : Nat) : RepOK (labelBlank i) := by
  refine ⟨by simp [labelBlank], ?_, ?_⟩
  · show ('（' : Char) ∉ marker
    decide
  · intro c hc
    have hmem := labelChar_mem i
    simp only [labelBlank, List.mem_cons, List.not_mem_nil, or_false] at hc
    have hlab : ∀ x ∈ labelsStr, x ≠ '{' := by decide
    rcases hc with rfl | rfl | rfl | rfl | rfl | rfl | rfl
    · decide
    · decide
    · decide
    · exact hlab _ hmem
    · decide
    · decide
    · decide

/-- The labelling loop written with the leftmost replacement peeled first. -/
def applyLabels : Nat → Nat → List Char → List Char
  | _, 0, t => t
  | i, n + 1, t => applyLabels (i + 1) n (replaceOnce marker (labelBlank i) t)

theorem applyLabels_snoc : ∀ (n i : Nat) (t : List Char),
    applyLabels i (n + 1) t =
      replaceOnce marker (labelBlank (i + n)) (applyLabels i n t) := by
  intro n
  induction n with
  | zero => intro i t; rfl
  | succ n ih =>
    intro i t
    show applyLabels (i + 1) (n + 1) (replaceOnce marker (labelBlank i) t) = _
    rw [ih (i + 1) (replaceOnce marker (labelBlank i) t)]
    have : i + 1 + n = i + (n + 1) := by omega
    rw [this]
    rfl

theorem fbGo_eq_applyLabels : ∀ (n : Nat) (t : List Char), n ≤ 26 →
    fbGo t n = applyLabels 0 n t := by
  intro n
  induction n with
  | zero => intro t _; rfl
  | succ n ih =>
    intro t hn
    show (let r := fbGo t n; if n < 26 then replaceOnce marker (labelBlank n) r else r) = _
    have hlt : n < 26 := by omega
    simp only [if_pos hlt]
    rw [ih t (by omega), applyLabels_snoc n 0 t, Nat.zero_add]

theorem fbGo_plateau : ∀ (k : Nat) (t : List Char), fbGo t (26 + k) = fbGo t 26 := by
  intro k
  induction k with
  | zero => intro t; rfl
  | succ k ih =>
    intro t
    show (let r := fbGo t (26 + k); if 26 + k < 26 then _ else r) = _
    rw [if_neg (by omega)]
    exact ih t

theorem countSub_fbGo : ∀ (k : Nat) (t : List Char), k ≤ 26 →
    countSub marker (fbGo t k) = countSub marker t - k := by
  intro k
  induction k with
  | zero => intro t _; rfl
  | succ k ih =>
    intro t hk
    show countSub marker
      (let r := fbGo t k; if k < 26 then replaceOnce marker (labelBlank k) r else r) = _
    rw [if_pos (by omega)]
    rw [countSub_replaceOnce (labelBlank k) (labelBlank_repOK k), ih t (by omega)]
    omega

/-- Text obtained by joining the pieces with a canonical marker between them. -/
def interMark : List (List Char) → List Char
  | [] => []
  | [p] => p
  | p :: ps => p ++ marker ++ interMark ps

/-- Text obtained by joining the pieces with labeled blanks, labels ascending from `i`. -/
def interLabel : Nat → List (List Char) → List Char
  | _, [] => []
  | _, [p] => p
  | i, p :: ps => p ++ labelBlank i ++ interLabel (i + 1) ps

theorem interMark_cons {p : List Char} {ps : List (List Char)} (h : ps ≠ []) :
    interMark (p :: ps) = p ++ marker ++ interMark ps := by
  cases ps with
  | nil => exact absurd rfl h
  | cons q qs => rfl

theorem interLabel_cons {i : Nat} {p : List Char} {ps : List (List Char)} (h : ps ≠ []) :
    interLabel i (p :: ps) = p ++ labelBlank i ++ interLabel (i + 1) ps := by
  cases ps with
  | nil => exact absurd rfl h
  | cons q qs => rfl

theorem applyLabels_commute : ∀ (k j : Nat) (pre r post : List Char),
    (∀ w, NoPre pre (r ++ w)) → (∀ c ∈ r, c ≠ '{') →
    applyLabels j k (pre ++ r ++ post) = pre ++ r ++ applyLabels j k post := by
  intro k
  induction k with
  | zero => intro j pre r post _ _; rfl
  | succ k ih =>
    intro j pre r post hP hr
    show applyLabels (j + 1) k (replaceOnce marker (labelBlank j) (pre ++ r ++ post)) =
      pre ++ r ++ applyLabels (j + 1) k (replaceOnce marker (labelBlank j) post)
    rw [List.append_assoc, replaceOnce_append_noPre pre _ _ (hP post),
      replaceOnce_append_headFree r _ _ hr, ← List.append_assoc]
    exact ih (j + 1) pre r _ hP hr

theorem applyLabels_spec : ∀ (n i : Nat) (t : List Char), countSub marker t = n →
    ∃ ps : List (List Char), ps.length = n + 1 ∧ (∀ p ∈ ps, countSub marker p = 0) ∧
      t = interMark ps ∧ applyLabels i n t = interLabel i ps := by
  intro n
  induction n with
  | zero =>
    intro i t h
    exact ⟨[t], rfl, by intro p hp; simp at hp; rw [hp]; exact h, rfl, rfl⟩
  | succ n ih =>
    intro i t hcnt
    obtain ⟨pre, post, ht, hpost, hnp, hro⟩ := countSub_decomp t n hcnt
    obtain ⟨ps', hlen, hzero, hpm, hal⟩ := ih (i + 1) post hpost
    have hps' : ps' ≠ [] := by
      intro h0
      rw [h0] at hlen
      simp at hlen
    have hPany : ∀ w, NoPre pre (labelBlank i ++ w) :=
      noPre_transfer (labelBlank i) hnp (labelBlank_repOK i)
    have hstep : applyLabels i (n + 1) t =
        applyLabels (i + 1) n (pre ++ labelBlank i ++ post) := by
      show applyLabels (i + 1) n (replaceOnce marker (labelBlank i) t) = _
      rw [hro (labelBlank i)]
    refine ⟨pre :: ps', by simp [hlen], ?_, ?_, ?_⟩
    · intro p hp
      rcases List.mem_cons.mp hp with rfl | hmem
      · exact countSub_noPre_zero hnp
      · exact hzero p hmem
    · rw [interMark_cons hps', ← hpm, ht]
    · rw [interLabel_cons hps', hstep,
        applyLabels_commute n (i + 1) pre (labelBlank i) post hPany (labelBlank_repOK i).2.2,
        hal]

/-! ### Substitutions that cannot touch markers

The register-conversion patterns and replacements consist of Japanese characters and
sentence punctuation, none of which occurs in `{{BLANK}}`; such substitutions can
neither destroy nor create a marker occurrence. -/

theorem subst_nil (m : Mtch) : subst m [] = [] := rfl

theorem subst_cons_none (m : Mtch) (hP : Proper m) {c : Char} {cs : List Char}
    (h : m (c :: cs) = none) : subst m (c :: cs) = c :: subst m cs := by
  unfold subst
  rw [List.length_cons]
  simp only [substGo, h]

theorem subst_some (m : Mtch) (hP : Proper m) {s r rest : List Char}
    (h : m s = some (r, rest)) : subst m s = r ++ subst m rest := by
  cases s with
  | nil =>
    have := hP [] r rest h
    simp at this
  | cons c cs =>
    unfold subst
    rw [List.length_cons]
    simp only [substGo, h]
    congr 1
    apply substGo_fuel m hP
    · have := hP _ _ _ h
      simp only [List.length_cons] at this
      omega
    · exact Nat.le_refl _

/-- A matcher whose matched text and replacement avoid all marker characters and are
both non-empty. -/
def MAvoid (m : Mtch) : Prop :=
  ∀ s r rest, m s = some (r, rest) →
    r ≠ [] ∧ (∀ c ∈ r, c ∉ marker) ∧
    ∃ t, t ≠ [] ∧ s = t ++ rest ∧ ∀ c ∈ t, c ∉ marker

theorem mAvoid_none_of_head (m : Mtch) (hA : MAvoid m) {c : Char} {cs : List Char}
    (hc : c ∈ marker) : m (c :: cs) = none := by
  cases hm : m (c :: cs) with
  | none => rfl
  | some pr =>
    exfalso
    obtain ⟨-, -, t, htne, hts, htm⟩ := hA (c :: cs) pr.1 pr.2 (by rw [hm])
    cases t with
    | nil => exact htne rfl
    | cons t0 ttl =>
      have heq : t0 = c := by
        rw [List.cons_append] at hts
        injection hts with h1 h2
        exact h1.symm
      exact htm t0 (by simp) (heq ▸ hc)

theorem subst_append_inMarker (m : Mtch) (hA : MAvoid m) (hP : Proper m) :
    ∀ u w : List Char, (∀ c ∈ u, c ∈ marker) →
      subst m (u ++ w) = u ++ subst m w := by
  intro u
  induction u with
  | nil => intro w _; rfl
  | cons c u' ih =>
    intro w h
    rw [List.cons_append,
      subst_cons_none m hP (mAvoid_none_of_head m hA (h c (by simp))),
      ih w (fun c hc => h c (by simp [hc]))]
    rfl

theorem marker_not_prefix_avoid (m : Mtch) (hA : MAvoid m) (hP : Proper m) :
    ∀ (n : Nat) (p s : List Char), s.length ≤ n → p ≠ [] → (∀ c ∈ p, c ∈ marker) →
      p.isPrefixOf s = false → p.isPrefixOf (subst m s) = false := by
  intro n
  induction n with
  | zero =>
    intro p s hn hne _ _
    have hs : s = [] := List.eq_nil_of_length_eq_zero (Nat.le_zero.mp hn)
    subst hs
    cases p with
    | nil => exact absurd rfl hne
    | cons p0 ptl => rfl
  | succ k ih =>
    intro p s hn hne hmem hpre
    cases s with
    | nil =>
      cases p with
      | nil => exact absurd rfl hne
      | cons p0 ptl => rfl
    | cons c cs =>
      cases hm : m (c :: cs) with
      | some pr =>
        obtain ⟨hrne, hrm, -⟩ := hA (c :: cs) pr.1 pr.2 (by rw [hm])
        rw [subst_some m hP hm]
        cases hr : pr.1 with
        | nil => exact absurd hr hrne
        | cons r0 rtl =>
          cases p with
          | nil => exact absurd rfl hne
          | cons p0 ptl =>
            cases hq : (p0 :: ptl).isPrefixOf (r0 :: rtl ++ subst m pr.2) with
            | false => rfl
            | true =>
              exfalso
              have hp0 : p0 = r0 := by
                have := List.isPrefixOf_iff_prefix.mp hq
                obtain ⟨w, hw⟩ := this
                rw [List.cons_append] at hw
                injection hw
              exact hrm r0 (by rw [hr]; simp) (hp0 ▸ hmem p0 (by simp))
      | none =>
        rw [subst_cons_none m hP hm]
        cases p with
        | nil => exact absurd rfl hne
        | cons p0 ptl =>
          show ((p0 == c) && ptl.isPrefixOf (subst m cs)) = false
          have hpre2 : ((p0 == c) && ptl.isPrefixOf cs) = false := hpre
          cases hb : p0 == c with
          | false => rw [Bool.false_and]
          | true =>
            rw [hb, Bool.true_and] at hpre2
            rw [Bool.true_and]
            cases hptl : ptl with
            | nil =>
              rw [hptl] at hpre2
              simp [List.isPrefixOf] at hpre2
            | cons q0 qtl =>
              rw [← hptl]
              apply ih ptl cs (by simp only [List.length_cons] at hn; omega)
                (by rw [hptl]; simp)
                (fun c hc => hmem c (by simp [hc]))
              rw [← hpre2]

theorem countSub_subst_avoid (m : Mtch) (hA : MAvoid m) (hP : Proper m) :
    ∀ (n : Nat) (s : List Char), s.length ≤ n →
      countSub marker (subst m s) = countSub marker s := by
  intro n
  induction n with
  | zero =>
    intro s hn
    have hs : s = [] := List.eq_nil_of_length_eq_zero (Nat.le_zero.mp hn)
    subst hs
    rfl
  | succ k ih =>
    intro s hn
    cases s with
    | nil => rfl
    | cons c cs =>
      cases hpre : marker.isPrefixOf (c :: cs) with
      | true =>
        have hsplit : marker ++ (c :: cs).drop marker.length = c :: cs := by
          have ht := List.prefix_iff_eq_take.mp (List.isPrefixOf_iff_prefix.mp hpre)
          conv_rhs => rw [← List.take_append_drop marker.length (c :: cs), ← ht]
        set z := (c :: cs).drop marker.length with hz
        have hlenz : z.length ≤ k := by
          rw [hz, List.length_drop]
          simp only [List.length_cons] at hn ⊢
          have hm9 : marker.length = 9 := rfl
          omega
        rw [← hsplit, subst_append_inMarker m hA hP marker z (fun c hc => hc)]
        have hp1 : marker.isPrefixOf (marker ++ subst m z) = true :=
          List.isPrefixOf_iff_prefix.mpr (List.prefix_append _ _)
        have hp2 : marker.isPrefixOf (marker ++ z) = true :=
          List.isPrefixOf_iff_prefix.mpr (List.prefix_append _ _)
        rw [countSub_cons_pos hp1, countSub_cons_pos hp2, List.drop_left, List.drop_left,
          ih z hlenz]
      | false =>
        cases hm : m (c :: cs) with
        | some pr =>
          obtain ⟨hrne, hrm, t, htne, hts, htm⟩ := hA (c :: cs) pr.1 pr.2 (by rw [hm])
          rw [subst_some m hP hm]
          have hrest : pr.2.length ≤ k := by
            have := hP _ _ _ hm
            simp only [List.length_cons] at this hn
            omega
          have hr1 : countSub marker (pr.1 ++ subst m pr.2) = countSub marker (subst m pr.2) :=
            countSub_append_headFree pr.1 _ (fun c hc hc2 => hrm c hc (hc2 ▸ (by decide)))
          have hr2 : countSub marker (c :: cs) = countSub marker pr.2 := by
            rw [hts]
            exact countSub_append_headFree t _ (fun c hc hc2 => htm c hc (hc2 ▸ (by decide)))
          rw [hr1, hr2, ih pr.2 hrest]
        | none =>
          rw [subst_cons_none m hP hm]
          have hpre2 : marker.isPrefixOf (c :: subst m cs) = false := by
            have := marker_not_prefix_avoid m hA hP (k + 1) marker (c :: cs) hn
              marker_ne (fun c hc => hc) hpre
            rw [subst_cons_none m hP hm] at this
            exact this
          rw [countSub_cons_neg hpre2, countSub_cons_neg hpre,
            ih cs (by simp only [List.length_cons] at hn; omega)]

theorem mLit_mavoid (lit opts rep : List Char) (h1 : lit ≠ []) (h2 : rep ≠ [])
    (h3 : ∀ c ∈ lit, c ∉ marker) (h4 : ∀ c ∈ opts, c ∉ marker)
    (h5 : ∀ c ∈ rep, c ∉ marker) : MAvoid (mLit lit opts rep) := by
  intro s r rest h
  obtain ⟨hr, hcase⟩ := mLit_some lit opts rep h
  subst hr
  refine ⟨h2, h5, ?_⟩
  rcases hcase with hs | ⟨o, ho, hs⟩
  · exact ⟨lit, h1, hs, h3⟩
  · refine ⟨lit ++ [o], by simp, by rw [hs, List.append_assoc]; rfl, ?_⟩
    intro c hc
    rcases List.mem_append.mp hc with hc | hc
    · exact h3 c hc
    · rw [List.mem_singleton.mp hc]
      exact h4 o ho

theorem countSub_subst_of_avoid (m : Mtch) (hA : MAvoid m) (hP : Proper m) (s : List Char) :
    countSub marker (subst m s) = countSub marker s :=
  countSub_subst_avoid m hA hP s.length s (Nat.le_refl _)

theorem countSub_qeFold : ∀ (tbl : List (List Char)) (t : List Char),
    (∀ lit ∈ tbl, lit ≠ [] ∧ ∀ c ∈ lit, c ∉ marker) →
    countSub marker (tbl.foldl (fun acc lit => subst (mLit lit qEndOpts naniKa) acc) t) =
      countSub marker t := by
  intro tbl
  induction tbl with
  | nil => intro t _; rfl
  | cons lit tl ih =>
    intro t h
    obtain ⟨hne, hlm⟩ := h lit (by simp)
    rw [List.foldl_cons,
      ih (subst (mLit lit qEndOpts naniKa) t) (fun l hl => h l (by simp [hl])),
      countSub_subst_of_avoid _
        (mLit_mavoid lit qEndOpts naniKa hne (by decide) hlm (by decide) (by decide))
        (mLit_proper lit qEndOpts naniKa hne)]

theorem countSub_desuFold : ∀ (tbl : List (List Char × List Char)) (t : List Char),
    (∀ p ∈ tbl, p.1 ≠ [] ∧ p.2 ≠ [] ∧ (∀ c ∈ p.1, c ∉ marker) ∧ ∀ c ∈ p.2, c ∉ marker) →
    countSub marker (tbl.foldl (fun acc p => subst (mLit p.1 [] p.2) acc) t) =
      countSub marker t := by
  intro tbl
  induction tbl with
  | nil => intro t _; rfl
  | cons p tl ih =>
    intro t h
    obtain ⟨h1, h2, h3, h4⟩ := h p (by simp)
    rw [List.foldl_cons,
      ih (subst (mLit p.1 [] p.2) t) (fun l hl => h l (by simp [hl])),
      countSub_subst_of_avoid _
        (mLit_mavoid p.1 [] p.2 h1 h2 h3 (by simp) h4)
        (mLit_proper p.1 [] p.2 h1)]

/-- The register converter neither creates nor destroys canonical markers. -/
theorem countSub_convert (t : List Char) :
    countSub marker (convert_desu_masu t) = countSub marker t := by
  unfold convert_desu_masu
  rw [countSub_desuFold desuTable _ (by decide), countSub_qeFold qeTable t (by decide)]

/-- The input `{{*BLANK*}}` used to refute C2 (built from character literals:
the marker text wrapped in emphasis asterisks). -/
def c2Input : List Char := ['{', '{', '*', 'B', 'L', 'A', 'N', 'K', '*', '}', '}']

/-- C2 counterexample: on the input `{{*BLANK*}}` the returned blank count is 0, yet
the working text immediately before the Blank Formatter contains one `{{BLANK}}`
occurrence, created by the italic-markup rule of the cleanup stage; the claimed
invariant fails. -/
theorem c2_counterexample :
    ¬ ((format_question c2Input []).blank_count =
        countSub marker (clean_text (convert_desu_masu (normalize_blanks c2Input)))) := by
  decide

/-- C2 (amended): the returned blank count equals the number of marker occurrences
immediately after blank normalization, and the register-conversion stage preserves
that number; the text-cleanup stage, however, can create new occurrences. -/
theorem c2_blank_count_invariant (q a : List Char) :
    (format_question q a).blank_count = countSub marker (normalize_blanks q) ∧
    countSub marker (convert_desu_masu (normalize_blanks q)) =
      countSub marker (normalize_blanks q) :=
  ⟨by simp only [format_question], countSub_convert _⟩

/-- The input `{{*BLANK*}}（　）（　）` used to refute C1. -/
def c1Input : List Char :=
  ['{', '{', '*', 'B', 'L', 'A', 'N', 'K', '*', '}', '}'] ++ ("（　）（　）").data

/-- C1 counterexample: the pipeline detects N = 2 blank idioms in
`{{*BLANK*}}（　）（　）`, but the formatted question renders label A at a marker the
cleanup stage created out of `{{*BLANK*}}`, label B at the first original idiom, and
leaves the second original idiom as a literal unrendered `{{BLANK}}`. -/
theorem c1_counterexample :
    (format_question c1Input []).blank_count = 2 ∧
    (format_question c1Input []).question =
      instructionLine ++ ("（　　A　　）（　　B　　）").data ++ marker := by
  decide

/-- C1 (amended): if the text reaching the Blank Formatter contains exactly N marker
occurrences, 2 ≤ N ≤ 26, then the formatter splits the text into N+1 marker-free
pieces and renders exactly the N markers as labeled blanks A, B, … in left-to-right
order. -/
theorem c1_labels_in_order (t : List Char) (N : Nat) (h2 : 2 ≤ N) (h26 : N ≤ 26)
    (hc : countSub marker t = N) :
    ∃ ps : List (List Char), ps.length = N + 1 ∧ (∀ p ∈ ps, countSub marker p = 0) ∧
      t = interMark ps ∧ format_blanks t N = interLabel 0 ps := by
  have hfb : format_blanks t N = applyLabels 0 N t := by
    unfold format_blanks
    rw [if_neg (by omega), if_neg (by omega)]
    exact fbGo_eq_applyLabels N t h26
  rw [hfb]
  exact applyLabels_spec N 0 t hc

/-- Concrete two-marker text for the C1 witness. -/
def c1WitnessInput : List Char := ("あ").data ++ marker ++ ("と").data ++ marker ++ ("い").data

theorem c1_witness : 2 ≤ 2 ∧ 2 ≤ 26 ∧ countSub marker c1WitnessInput = 2 ∧
    (∃ ps : List (List Char), ps.length = 2 + 1 ∧ (∀ p ∈ ps, countSub marker p = 0) ∧
      c1WitnessInput = interMark ps ∧ format_blanks c1WitnessInput 2 = interLabel 0 ps) :=
  ⟨by decide, by decide, by decide,
    c1_labels_in_order c1WitnessInput 2 (by decide) (by decide) (by decide)⟩

/-- C10: with a blank count above 26, `format_blanks` behaves exactly as with 26 —
the first 26 markers become labeled blanks A–Z — and every further marker occurrence
stays in the text unchanged. -/
theorem c10_over_26 (t : List Char) (n : Nat) (h : 26 < n) :
    format_blanks t n = format_blanks t 26 ∧
    countSub marker (format_blanks t n) = countSub marker t - 26 := by
  have h0 : format_blanks t n = fbGo t n := by
    unfold format_blanks
    rw [if_neg (by omega), if_neg (by omega)]
  have h1 : format_blanks t 26 = fbGo t 26 := by
    unfold format_blanks
    rw [if_neg (by omega), if_neg (by omega)]
  have hplateau : fbGo t n = fbGo t 26 := by
    have hn : n = 26 + (n - 26) := by omega
    rw [hn]
    exact fbGo_plateau (n - 26) t
  refine ⟨by rw [h0, h1, hplateau], ?_⟩
  rw [h0, hplateau, countSub_fbGo 26 t (Nat.le_refl _)]

/-- A text of 27 consecutive markers for the C10 witness. -/
def c10Input : List Char := (List.replicate 27 marker).flatten

theorem c10_witness : 26 < 27 ∧
    (format_blanks c10Input 27 = format_blanks c10Input 26 ∧
      countSub marker (format_blanks c10Input 27) = countSub marker c10Input - 26) :=
  ⟨by decide, c10_over_26 c10Input 27 (by decide)⟩

theorem nslIter_irrel : ∀ (m₁ : Nat), ∀ (m₂ : Nat) (s : List Char),
    countConv s < m₁ → countConv s < m₂ → nslIter m₁ s = nslIter m₂ s := by
  intro m₁
  induction m₁ with
  | zero => intro m₂ s h _; exact absurd h (by omega)
  | succ k ih =>
    intro m₂ s h1 h2
    cases m₂ with
    | zero => exact absurd h2 (by omega)
    | succ j =>
      have e1 : nslIter (k + 1) s = if passStep s = s then s else nslIter k (passStep s) := rfl
      have e2 : nslIter (j + 1) s = if passStep s = s then s else nslIter j (passStep s) := rfl
      rw [e1, e2]
      by_cases he : passStep s = s
      · rw [if_pos he, if_pos he]
      · rw [if_neg he, if_neg he]
        have hd := (passStep_le s).2 he
        exact ih j (passStep s) (by omega) (by omega)

/-- C9: the repeated re-scanning pass of the standalone-letter detector reaches a
fixpoint of `passStep` within its fuel, and any larger fuel gives the same result,
so the loop (and with it `normalize_standalone_letters`) is a total function. -/
theorem c9_loop_reaches_fixpoint (s : List Char) :
    passStep (nslLoop s) = nslLoop s ∧
    ∀ m, countConv s < m → nslIter m s = nslLoop s := by
  refine ⟨nslLoop_fix s, ?_⟩
  intro m hm
  exact nslIter_irrel m (countConv s + 1) s hm (Nat.lt_succ_self _)

theorem c9_witness :
    (passStep (nslLoop (("はA、B、Cの").data)) = nslLoop (("はA、B、Cの").data)) ∧
    countConv (("はA、B、Cの").data) < 9 ∧
    nslIter 9 (("はA、B、Cの").data) = nslLoop (("はA、B、Cの").data) :=
  ⟨(c9_loop_reaches_fixpoint (("はA、B、Cの").data)).1, by decide,
    (c9_loop_reaches_fixpoint (("はA、B、Cの").data)).2 9 (by decide)⟩

theorem format_answer_seikai (a : List Char) (n : Nat) :
    seikai.isPrefixOf (format_answer a n) = true := by
  have hpre : ∀ x : List Char, seikai.isPrefixOf (seikai ++ x) = true := fun x =>
    List.isPrefixOf_iff_prefix.mpr (List.prefix_append _ _)
  simp only [format_answer]
  repeat' split
  all_goals exact hpre _

/-- C3: the orchestrator is a total function — on every pair of input strings it
returns a result whose answer carries the fixed `正解：` tag, whose blank count is the
(non-negative) marker count of the normalized question, and no branch of any stage
fails. -/
theorem c3_no_failure (q a : List Char) :
    ∃ r : FQResult, format_question q a = r ∧
      seikai.isPrefixOf r.answer = true ∧ 0 ≤ r.blank_count := by
  refine ⟨format_question q a, rfl, ?_, Nat.zero_le _⟩
  show seikai.isPrefixOf (format_question q a).answer = true
  simp only [format_question]
  exact format_answer_seikai a _

/-- C7: the answer `①赤血球 ②白血球` with blank count 2 is rendered as the fixed
tag followed by entry A, the wide separator, and entry B. -/
theorem c7_circled_example :
    format_answer (("①赤血球 ②白血球").data) 2 = ("正解：A. 赤血球　　B. 白血球").data := by
  decide

/-- C4 counterexample: two failures of the claimed blanket protection. In
`これは、A型である` the letter A is immediately followed by the protected suffix 型,
yet — preceded by a comma rather than a native-script character — it is converted
into a canonical marker. In `あA型B型` the letter B is preceded by the native 型 and
followed by the suffix 型, yet it is converted, because the non-overlapping
protection pass consumed the preceding 型 inside its match for A型. -/
theorem c4_counterexample :
    (normalize_standalone_letters (("これは、A型である").data) =
      ("これは、").data ++ marker ++ ("型である").data) ∧
    (normalize_standalone_letters (("あA型B型").data) =
      ("あA型").data ++ marker ++ ("型").data) :=
  ⟨by decide, by decide⟩

/-- C4 (amended): for every suffix word in the fixed domain-suffix table, the text
`これはA` + suffix + `である。` passes the standalone-letter stage unchanged — in this
context the technical-term pass always finds an unconsumed native-script character
right before the letter, so the letter is protected; the counterexamples show the
protection is not a blanket guarantee outside such contexts. -/
theorem c4_protected_after_native :
    ∀ w ∈ suffixWords,
      normalize_standalone_letters (("これはA").data ++ w ++ ("である。").data) =
        ("これはA").data ++ w ++ ("である。").data := by
  decide

theorem c4_witness : (("型").data ∈ suffixWords) ∧
    normalize_standalone_letters (("これはA").data ++ ("型").data ++ ("である。").data) =
      ("これはA").data ++ ("型").data ++ ("である。").data :=
  ⟨by decide, c4_protected_after_native (("型").data) (by decide)⟩

/-! ### Suffix preservation through literal substitutions

Used for the question-ending claim: the first ending-unification pattern rewrites a
final `は何でしょうか。` to `はなにか。`, and no later pattern of either table can
match across or inside that ending. -/

/-- The texts a `mLit lit opts rep` match can consume. -/
def litVariants (lit opts : List Char) : List (List Char) :=
  lit :: opts.map (fun o => lit ++ [o])

/-- No proper suffix of any matchable text is a prefix of `S`: a match starting left
of a final `S` can never reach into it. -/
def noCrossB (lit opts S : List Char) : Bool :=
  (litVariants lit opts).all fun t =>
    (List.range t.length).all fun j =>
      j == 0 || decide (S.take j ≠ t.drop (t.length - j))

/-- The matcher fails at every position inside `S`. -/
def noMatchInB (lit opts rep S : List Char) : Bool :=
  (List.range S.length).all fun i => (mLit lit opts rep (S.drop i)).isNone

theorem noCross_spec {lit opts S : List Char} (h : noCrossB lit opts S = true) :
    ∀ t ∈ litVariants lit opts, ∀ j, 1 ≤ j → j < t.length →
      S.take j ≠ t.drop (t.length - j) := by
  intro t ht j hj1 hj2
  have h1 := (List.all_eq_true.mp h) t ht
  have h2 := (List.all_eq_true.mp h1) j (List.mem_range.mpr hj2)
  simp only [Bool.or_eq_true, beq_iff_eq, decide_eq_true_eq] at h2
  rcases h2 with h0 | hne
  · omega
  · exact hne

theorem mLit_variant {lit opts rep s r rest : List Char}
    (h : mLit lit opts rep s = some (r, rest)) :
    r = rep ∧ ∃ t0 ∈ litVariants lit opts, s = t0 ++ rest := by
  obtain ⟨hr, hcase⟩ := mLit_some lit opts rep h
  refine ⟨hr, ?_⟩
  rcases hcase with hs | ⟨o, ho, hs⟩
  · exact ⟨lit, by simp [litVariants], hs⟩
  · refine ⟨lit ++ [o], ?_, by rw [hs, List.append_assoc]; rfl⟩
    simp only [litVariants, List.mem_cons, List.mem_map]
    exact Or.inr ⟨o, ho, rfl⟩

theorem subst_fix_suffix (lit opts rep S : List Char) (hl : lit ≠ [])
    (hin : noMatchInB lit opts rep S = true) :
    ∀ t : List Char, t <:+ S → subst (mLit lit opts rep) t = t := by
  intro t
  induction t with
  | nil => intro _; rfl
  | cons c ct ih =>
    intro hsuf
    have hlen : (c :: ct).length ≤ S.length := hsuf.length_le
    have hidx : S.length - (c :: ct).length < S.length := by
      simp only [List.length_cons] at hlen ⊢
      omega
    have hdropeq : S.drop (S.length - (c :: ct).length) = c :: ct := by
      obtain ⟨u, hu⟩ := hsuf
      rw [← hu]
      rw [List.drop_append_eq_append_drop]
      have hul : u.length = (u ++ c :: ct).length - (c :: ct).length := by simp
      rw [← hul, List.drop_length, List.nil_append, Nat.sub_self, List.drop_zero]
    have hnone : mLit lit opts rep (c :: ct) = none := by
      have hall := (List.all_eq_true.mp hin) _ (List.mem_range.mpr hidx)
      rw [hdropeq] at hall
      exact Option.isNone_iff_eq_none.mp hall
    rw [subst_cons_none _ (mLit_proper lit opts rep hl) hnone,
      ih ((List.suffix_cons c ct).trans hsuf)]

theorem suffix_take_drop {s S t0 rest : List Char} (hsuf : S <:+ s)
    (hsplit : s = t0 ++ rest) (hgt : S.length < s.length) (hlt : rest.length < S.length) :
    S.take (S.length - rest.length) = t0.drop (t0.length - (S.length - rest.length)) := by
  obtain ⟨u, hu⟩ := hsuf
  have hlu : u.length + S.length = s.length := by simpa using congrArg List.length hu
  have hlt0 : t0.length + rest.length = s.length := by
    simpa using (congrArg List.length hsplit).symm
  have hdropu : s.drop u.length = S := by
    rw [← hu, List.drop_left]
  have htake : t0 = s.take t0.length := by
    rw [hsplit, List.take_left]
  have h2 : t0.length - (S.length - rest.length) = u.length := by omega
  rw [h2]
  have h3 : t0.drop u.length = (s.take t0.length).drop u.length := by rw [← htake]
  rw [h3, List.drop_take, hdropu]
  congr 1
  omega

theorem suffix_of_suffix_le {s S rest : List Char} (hS : S <:+ s) (hrest : rest <:+ s)
    (hle : S.length ≤ rest.length) : S <:+ rest := by
  obtain ⟨u, hu⟩ := hS
  obtain ⟨v, hv⟩ := hrest
  have hdu : s.drop u.length = S := by rw [← hu, List.drop_left]
  have hdv : s.drop v.length = rest := by rw [← hv, List.drop_left]
  have hlu : u.length + S.length = s.length := by simpa using congrArg List.length hu
  have hlv : v.length + rest.length = s.length := by simpa using congrArg List.length hv
  refine ⟨rest.take (u.length - v.length), ?_⟩
  have h1 : rest.drop (u.length - v.length) = S := by
    rw [← hdv, List.drop_drop, ← hdu]
    congr 1
    omega
  conv_rhs => rw [← List.take_append_drop (u.length - v.length) rest]
  rw [h1]

theorem subst_keep_suffix (lit opts rep S : List Char) (hl : lit ≠ []) (hSne : S ≠ [])
    (hcross : noCrossB lit opts S = true) (hin : noMatchInB lit opts rep S = true) :
    ∀ (n : Nat) (s : List Char), s.length ≤ n → S <:+ s →
      S <:+ subst (mLit lit opts rep) s := by
  intro n
  induction n with
  | zero =>
    intro s hn hsuf
    have hs : s = [] := List.eq_nil_of_length_eq_zero (Nat.le_zero.mp hn)
    subst hs
    exact absurd (List.suffix_nil.mp hsuf) hSne
  | succ k ih =>
    intro s hn hsuf
    by_cases hlen : s.length = S.length
    · have hseq : S = s := hsuf.eq_of_length hlen.symm
      rw [← hseq, subst_fix_suffix lit opts rep S hl hin S (List.suffix_refl S)]
    · have hgt : S.length < s.length := by
        have := hsuf.length_le
        omega
      cases s with
      | nil => simp at hgt
      | cons c cs =>
        cases hm : mLit lit opts rep (c :: cs) with
        | none =>
          rw [subst_cons_none _ (mLit_proper lit opts rep hl) hm]
          have hsuf2 : S <:+ cs := by
            rcases List.suffix_cons_iff.mp hsuf with he | h2
            · exfalso
              have := congrArg List.length he
              omega
            · exact h2
          exact (ih cs (by simp only [List.length_cons] at hn; omega) hsuf2).trans
            (List.suffix_cons c _)
        | some pr =>
          obtain ⟨hr, t0, ht0mem, hsplit⟩ := mLit_variant (by rw [hm] : mLit lit opts rep (c :: cs) = some (pr.1, pr.2))
          have hrest : S.length ≤ pr.2.length := by
            by_contra hcon
            push_neg at hcon
            have hj1 : 1 ≤ S.length - pr.2.length := by omega
            have ht0len : t0.length = (c :: cs).length - pr.2.length := by
              have := congrArg List.length hsplit
              simp at this
              simp only [List.length_cons]
              omega
            have hj2 : S.length - pr.2.length < t0.length := by
              rw [ht0len]
              simp only [List.length_cons] at hgt ⊢
              omega
            exact noCross_spec hcross t0 ht0mem (S.length - pr.2.length) hj1 hj2
              (suffix_take_drop hsuf hsplit hgt hcon)
          have hsufrest : S <:+ pr.2 :=
            suffix_of_suffix_le hsuf (hsplit ▸ List.suffix_append t0 pr.2) hrest
          rw [subst_some _ (mLit_proper lit opts rep hl) hm]
          have hrlen : pr.2.length ≤ k := by
            have := mLit_proper lit opts rep hl _ _ _ hm
            simp only [List.length_cons] at this hn
            omega
          exact (ih pr.2 hrlen hsufrest).trans (List.suffix_append pr.1 _)

theorem subst_make_suffix (lit opts rep S : List Char) (hl : lit ≠ []) (hSne : S ≠ [])
    (hcross : noCrossB lit opts S = true)
    (hend : mLit lit opts rep S = some (rep, [])) :
    ∀ (n : Nat) (s : List Char), s.length ≤ n → S <:+ s →
      rep <:+ subst (mLit lit opts rep) s := by
  intro n
  induction n with
  | zero =>
    intro s hn hsuf
    have hs : s = [] := List.eq_nil_of_length_eq_zero (Nat.le_zero.mp hn)
    subst hs
    exact absurd (List.suffix_nil.mp hsuf) hSne
  | succ k ih =>
    intro s hn hsuf
    by_cases hlen : s.length = S.length
    · have hseq : S = s := hsuf.eq_of_length hlen.symm
      rw [← hseq, subst_some _ (mLit_proper lit opts rep hl) hend, subst_nil,
        List.append_nil]
    · have hgt : S.length < s.length := by
        have := hsuf.length_le
        omega
      cases s with
      | nil => simp at hgt
      | cons c cs =>
        cases hm : mLit lit opts rep (c :: cs) with
        | none =>
          rw [subst_cons_none _ (mLit_proper lit opts rep hl) hm]
          have hsuf2 : S <:+ cs := by
            rcases List.suffix_cons_iff.mp hsuf with he | h2
            · exfalso
              have := congrArg List.length he
              omega
            · exact h2
          exact (ih cs (by simp only [List.length_cons] at hn; omega) hsuf2).trans
            (List.suffix_cons c _)
        | some pr =>
          obtain ⟨hr, t0, ht0mem, hsplit⟩ := mLit_variant (by rw [hm] : mLit lit opts rep (c :: cs) = some (pr.1, pr.2))
          have hrest : S.length ≤ pr.2.length := by
            by_contra hcon
            push_neg at hcon
            have hj1 : 1 ≤ S.length - pr.2.length := by omega
            have ht0len : t0.length = (c :: cs).length - pr.2.length := by
              have := congrArg List.length hsplit
              simp at this
              simp only [List.length_cons]
              omega
            have hj2 : S.length - pr.2.length < t0.length := by
              rw [ht0len]
              simp only [List.length_cons] at hgt ⊢
              omega
            exact noCross_spec hcross t0 ht0mem (S.length - pr.2.length) hj1 hj2
              (suffix_take_drop hsuf hsplit hgt hcon)
          have hsufrest : S <:+ pr.2 :=
            suffix_of_suffix_le hsuf (hsplit ▸ List.suffix_append t0 pr.2) hrest
          rw [subst_some _ (mLit_proper lit opts rep hl) hm]
          have hrlen : pr.2.length ≤ k := by
            have := mLit_proper lit opts rep hl _ _ _ hm
            simp only [List.length_cons] at this hn
            omega
          exact (ih pr.2 hrlen hsufrest).trans (List.suffix_append pr.1 _)

/-- C6: for every question text ending in は何でしょうか。, the register converter
rewrites that ending to はなにか。 — the first pattern of the question-ending table
consumes the whole ending, and no later ending pattern or politeness pattern (in
particular でしょうか → であろうか) can match across or inside the rewritten
ending, because the ending table is applied in full before the politeness table. -/
theorem c6_question_ending (t : List Char) :
    naniKa <:+ convert_desu_masu (t ++ ("は何でしょうか。").data) := by
  have hS1 : naniKa ≠ [] := by decide
  simp only [convert_desu_masu, qeTable, desuTable, List.foldl_cons, List.foldl_nil]
  refine subst_keep_suffix _ _ _ _ (by decide) hS1 (by decide) (by decide) _ _ (Nat.le_refl _) ?_
  refine subst_keep_suffix _ _ _ _ (by decide) hS1 (by decide) (by decide) _ _ (Nat.le_refl _) ?_
  refine subst_keep_suffix _ _ _ _ (by decide) hS1 (by decide) (by decide) _ _ (Nat.le_refl _) ?_
  refine subst_keep_suffix _ _ _ _ (by decide) hS1 (by decide) (by decide) _ _ (Nat.le_refl _) ?_
  refine subst_keep_suffix _ _ _ _ (by decide) hS1 (by decide) (by decide) _ _ (Nat.le_refl _) ?_
  refine subst_keep_suffix _ _ _ _ (by decide) hS1 (by decide) (by decide) _ _ (Nat.le_refl _) ?_
  refine subst_keep_suffix _ _ _ _ (by decide) hS1 (by decide) (by decide) _ _ (Nat.le_refl _) ?_
  refine subst_keep_suffix _ _ _ _ (by decide) hS1 (by decide) (by decide) _ _ (Nat.le_refl _) ?_
  refine subst_keep_suffix _ _ _ _ (by decide) hS1 (by decide) (by decide) _ _ (Nat.le_refl _) ?_
  refine subst_keep_suffix _ _ _ _ (by decide) hS1 (by decide) (by decide) _ _ (Nat.le_refl _) ?_
  refine subst_keep_suffix _ _ _ _ (by decide) hS1 (by decide) (by decide) _ _ (Nat.le_refl _) ?_
  refine subst_keep_suffix _ _ _ _ (by decide) hS1 (by decide) (by decide) _ _ (Nat.le_refl _) ?_
  refine subst_keep_suffix _ _ _ _ (by decide) hS1 (by decide) (by decide) _ _ (Nat.le_refl _) ?_
  refine subst_keep_suffix _ _ _ _ (by decide) hS1 (by decide) (by decide) _ _ (Nat.le_refl _) ?_
  refine subst_keep_suffix _ _ _ _ (by decide) hS1 (by decide) (by decide) _ _ (Nat.le_refl _) ?_
  refine subst_keep_suffix _ _ _ _ (by decide) hS1 (by decide) (by decide) _ _ (Nat.le_refl _) ?_
  refine subst_keep_suffix _ _ _ _ (by decide) hS1 (by decide) (by decide) _ _ (Nat.le_refl _) ?_
  refine subst_keep_suffix _ _ _ _ (by decide) hS1 (by decide) (by decide) _ _ (Nat.le_refl _) ?_
  refine subst_keep_suffix _ _ _ _ (by decide) hS1 (by decide) (by decide) _ _ (Nat.le_refl _) ?_
  refine subst_keep_suffix _ _ _ _ (by decide) hS1 (by decide) (by decide) _ _ (Nat.le_refl _) ?_
  refine subst_keep_suffix _ _ _ _ (by decide) hS1 (by decide) (by decide) _ _ (Nat.le_refl _) ?_
  refine subst_keep_suffix _ _ _ _ (by decide) hS1 (by decide) (by decide) _ _ (Nat.le_refl _) ?_
  refine subst_keep_suffix _ _ _ _ (by decide) hS1 (by decide) (by decide) _ _ (Nat.le_refl _) ?_
  refine subst_keep_suffix _ _ _ _ (by decide) hS1 (by decide) (by decide) _ _ (Nat.le_refl _) ?_
  refine subst_keep_suffix _ _ _ _ (by decide) hS1 (by decide) (by decide) _ _ (Nat.le_refl _) ?_
  refine subst_keep_suffix _ _ _ _ (by decide) hS1 (by decide) (by decide) _ _ (Nat.le_refl _) ?_
  refine subst_keep_suffix _ _ _ _ (by decide) hS1 (by decide) (by decide) _ _ (Nat.le_refl _) ?_
  exact subst_make_suffix (("は何でしょうか").data) qEndOpts naniKa
    (("は何でしょうか。").data) (by decide) (by decide) (by decide) (by decide)
    _ _ (Nat.le_refl _) (List.suffix_append t _)

/-! ### Facts about native-script characters

Values made of Japanese-script characters interact with none of the answer-parser
delimiters: they are not whitespace, separators, digits, letters, circled glyphs or
newlines. -/

theorem jp_not_ws {c : Char} (h : isJpC c = true) : isWsC c = false := by
  unfold isJpC at h
  unfold isWsC
  simp only [decide_eq_true_eq] at h
  simp only [decide_eq_false_iff_not]
  omega

theorem jp_not_upper {c : Char} (h : isJpC c = true) : isUpperC c = false := by
  unfold isJpC at h
  unfold isUpperC
  simp only [decide_eq_true_eq] at h
  simp only [decide_eq_false_iff_not]
  omega

theorem jp_not_alpha {c : Char} (h : isJpC c = true) : isAlphaC c = false := by
  unfold isJpC at h
  unfold isAlphaC isUpperC isLowerC
  simp only [decide_eq_true_eq] at h
  simp only [Bool.or_eq_false_iff, decide_eq_false_iff_not]
  omega

theorem jp_not_digit {c : Char} (h : isJpC c = true) : isDigitC c = false := by
  unfold isJpC at h
  unfold isDigitC
  simp only [decide_eq_true_eq] at h
  simp only [decide_eq_false_iff_not]
  omega

theorem jp_not_circled {c : Char} (h : isJpC c = true) : isCircledC c = false := by
  unfold isJpC at h
  unfold isCircledC
  simp only [decide_eq_true_eq] at h
  simp only [decide_eq_false_iff_not]
  omega

theorem jp_ne_of_lt {c d : Char} (h : isJpC c = true) (hd : d.toNat < 0x3040) : c ≠ d := by
  intro he
  subst he
  unfold isJpC at h
  simp only [decide_eq_true_eq] at h
  omega

theorem jp_not_sepML {c : Char} (h : isJpC c = true) : isSepML c = false := by
  unfold isSepML
  rw [jp_not_ws h]
  have h1 : c ≠ '.' := jp_ne_of_lt h (by decide)
  have h3 : c ≠ ':' := jp_ne_of_lt h (by decide)
  have h4 : c ≠ '：' := by
    intro he
    subst he
    exact absurd h (by decide)
  simp [h1, h3, h4]

theorem jp_not_sepNum {c : Char} (h : isJpC c = true) : isSepNum c = false := by
  unfold isSepNum
  rw [jp_not_sepML h]
  have h1 : c ≠ ')' := jp_ne_of_lt h (by decide)
  have h2 : c ≠ '）' := by
    intro he
    subst he
    exact absurd h (by decide)
  simp [h1, h2]

theorem jp_ne_nl {c : Char} (h : isJpC c = true) : c ≠ '\n' := jp_ne_of_lt h (by decide)

theorem jp_ne_comma {c : Char} (h : isJpC c = true) : c ≠ ',' := jp_ne_of_lt h (by decide)

theorem jp_ne_jcomma {c : Char} (h : isJpC c = true) : c ≠ '、' := by
  intro he
  subst he
  exact absurd h (by decide)

/-! ### Small list-scanning helpers -/

theorem mem_of_getLastQ {l : List Char} {c : Char} (h : l.getLast? = some c) : c ∈ l := by
  have h2 : l.reverse.head? = some c := by rw [List.head?_reverse]; exact h
  have h3 : c ∈ l.reverse := by
    cases lr : l.reverse with
    | nil => rw [lr] at h2; cases h2
    | cons d ds =>
      rw [lr] at h2
      have hd : d = c := by injection h2
      rw [hd]
      simp
  exact List.mem_reverse.mp h3

theorem takeWhile_cons_pos {p : Char → Bool} {c : Char} (l : List Char) (h : p c = true) :
    (c :: l).takeWhile p = c :: l.takeWhile p := by
  simp [List.takeWhile_cons, h]

theorem takeWhile_cons_neg {p : Char → Bool} {c : Char} (l : List Char) (h : p c = false) :
    (c :: l).takeWhile p = [] := by
  simp [List.takeWhile_cons, h]

theorem takeWhile_head_neg {p : Char → Bool} {l : List Char}
    (h : ∀ c, l.head? = some c → p c = false) : l.takeWhile p = [] := by
  cases l with
  | nil => rfl
  | cons c cs => exact takeWhile_cons_neg cs (h c rfl)

theorem dropWhile_head_neg {p : Char → Bool} {l : List Char}
    (h : ∀ c, l.head? = some c → p c = false) : l.dropWhile p = l := by
  cases l with
  | nil => rfl
  | cons c cs => simp [List.dropWhile_cons, h c rfl]

theorem head_mem_jp {u : List Char} (hju : ∀ c ∈ u, isJpC c = true) :
    ∀ c, u.head? = some c → isJpC c = true := by
  intro c hc
  cases u with
  | nil => cases hc
  | cons d ds =>
    have : d = c := by injection hc
    exact this ▸ hju d (by simp)

theorem pyStrip_eq_self {s : List Char}
    (h1 : ∀ c, s.head? = some c → isWsC c = false)
    (h2 : ∀ c, s.getLast? = some c → isWsC c = false) : pyStrip s = s := by
  unfold pyStrip
  rw [dropWhile_head_neg h1]
  rw [dropWhile_head_neg (by
    intro c hc
    rw [List.head?_reverse] at hc
    exact h2 c hc)]
  exact List.reverse_reverse s

theorem getLast_append_jp {x u : List Char} (hu : u ≠ []) (hju : ∀ c ∈ u, isJpC c = true) :
    ∀ c, (x ++ u).getLast? = some c → isJpC c = true := by
  intro c hc
  rw [List.getLast?_append_of_ne_nil x hu] at hc
  exact hju c (mem_of_getLastQ hc)

theorem pyStrip_jp {u : List Char} (hju : ∀ c ∈ u, isJpC c = true) : pyStrip u = u := by
  apply pyStrip_eq_self
  · intro c hc
    exact jp_not_ws (head_mem_jp hju c hc)
  · intro c hc
    exact jp_not_ws (hju c (mem_of_getLastQ hc))

theorem splitNl_no_nl {x : List Char} (hx : ∀ c ∈ x, c ≠ '\n') : splitNl x = [x] := by
  induction x with
  | nil => rfl
  | cons c cs ih =>
    unfold splitNl
    rw [if_neg (hx c (by simp)), ih (fun c hc => hx c (by simp [hc]))]

theorem splitNl_append {x y : List Char} (hx : ∀ c ∈ x, c ≠ '\n') :
    splitNl (x ++ '\n' :: y) = x :: splitNl y := by
  induction x with
  | nil =>
    show splitNl ('\n' :: y) = [] :: splitNl y
    rw [splitNl]
    rw [if_pos rfl]
  | cons c cs ih =>
    show splitNl (c :: (cs ++ '\n' :: y)) = (c :: cs) :: splitNl y
    rw [splitNl]
    rw [if_neg (hx c (by simp)), ih (fun c hc => hx c (by simp [hc]))]

theorem rstripComma_jp {u : List Char} (hju : ∀ c ∈ u, isJpC c = true) :
    rstripComma u = u := by
  unfold rstripComma
  rw [dropWhile_head_neg (by
    intro c hc
    rw [List.head?_reverse] at hc
    have hj := hju c (mem_of_getLastQ hc)
    simp [jp_ne_comma hj, jp_ne_jcomma hj])]
  exact List.reverse_reverse u

/-! ### Scanning lemmas for the single-line answer parsers -/

theorem findVal_decomp {ok : Char → Bool} {lk : List Char → Bool} :
    ∀ {s v r : List Char}, findVal ok lk s = some (v, r) → s = v ++ r ∧ v ≠ [] := by
  intro s
  induction s with
  | nil => intro v r h; cases h
  | cons c cs ih =>
    intro v r h
    rw [findVal] at h
    by_cases hok : ok c = true
    · rw [if_pos hok] at h
      by_cases hlk : lk cs = true
      · rw [if_pos hlk] at h
        have hv : v = [c] ∧ r = cs := by
          cases h
          exact ⟨rfl, rfl⟩
        obtain ⟨rfl, rfl⟩ := hv
        exact ⟨rfl, by simp⟩
      · rw [if_neg hlk] at h
        cases hrec : findVal ok lk cs with
        | none => rw [hrec] at h; cases h
        | some pr =>
          rw [hrec] at h
          have hv : v = c :: pr.1 ∧ r = pr.2 := by
            cases h
            exact ⟨rfl, rfl⟩
          obtain ⟨rfl, rfl⟩ := hv
          obtain ⟨h1, h2⟩ := ih (by rw [hrec] : findVal ok lk cs = some (pr.1, pr.2))
          exact ⟨by rw [List.cons_append, ← h1], by simp⟩
    · rw [if_neg hok] at h
      cases h

theorem findVal_through (ok : Char → Bool) (lk : List Char → Bool)
    (hok : ∀ c, isJpC c = true → ok c = true)
    (hlk : ∀ c cs, isJpC c = true → lk (c :: cs) = false) :
    ∀ (u r : List Char), u ≠ [] → (∀ c ∈ u, isJpC c = true) → lk r = true →
      findVal ok lk (u ++ r) = some (u, r) := by
  intro u
  induction u with
  | nil => intro r h _ _; exact absurd rfl h
  | cons c u' ih =>
    intro r _ hju hlkr
    have hc : isJpC c = true := hju c (by simp)
    rw [List.cons_append, findVal, if_pos (hok c hc)]
    cases u' with
    | nil =>
      rw [List.nil_append, if_pos hlkr]
    | cons d u2 =>
      have hd : isJpC d = true := hju d (by simp)
      have hlkf : lk (d :: (u2 ++ r)) = false := hlk d (u2 ++ r) hd
      rw [if_neg (by rw [List.cons_append, hlkf]; simp)]
      rw [ih r (by simp) (fun c hc => hju c (by simp [hc])) hlkr]

/-- Tails that never return more than they were given; enough for fuel irrelevance. -/
def TailLe (tl : List Char → Option (List Char × List Char)) : Prop :=
  ∀ s v r, tl s = some (v, r) → r.length ≤ s.length

theorem sepBack_le (lk : List Char → Bool) :
    ∀ (e : Nat) (rest v r : List Char), sepBack lk rest e = some (v, r) →
      r.length ≤ rest.length := by
  intro e
  induction e with
  | zero => intro rest v r h; cases h
  | succ k ih =>
    intro rest v r h
    simp only [sepBack] at h
    by_cases hl : lk (rest.drop (k + 1)) = true
    · rw [if_pos hl] at h
      have h2 : some ([rest.getD k ' '], rest.drop (k + 1)) = some (v, r) := h
      have hr : r = rest.drop (k + 1) := by
        cases h2
        rfl
      rw [hr, List.length_drop]
      omega
    · rw [if_neg hl] at h
      exact ih rest v r h

theorem circledTail_le : TailLe circledTail := by
  intro s v r h
  simp only [circledTail] at h
  cases hf : findVal (fun c => !isCircledC c) lkCircled (s.drop (s.takeWhile isSepML).length) with
  | some pr =>
    obtain ⟨v1, r1⟩ := pr
    rw [hf] at h
    have h2 : some (v1, r1) = some (v, r) := h
    have hr : r = r1 := by cases h2; rfl
    obtain ⟨hsplit, -⟩ := findVal_decomp hf
    have := congrArg List.length hsplit
    simp only [List.length_append, List.length_drop] at this
    rw [hr]
    omega
  | none =>
    rw [hf] at h
    have h2 : sepBack lkCircled s (s.takeWhile isSepML).length = some (v, r) := h
    exact sepBack_le lkCircled _ s v r h2

theorem letterTail_le (ok : Char → Bool) (lk : List Char → Bool) :
    TailLe (letterTail ok lk) := by
  intro s v r h
  cases s with
  | nil => exact absurd h (by simp [letterTail])
  | cons p rest =>
    simp only [letterTail] at h
    by_cases hp : isSepPt p = true
    · rw [if_pos hp] at h
      cases hf : findVal ok lk (rest.drop (rest.takeWhile isWsC).length) with
      | some pr =>
        obtain ⟨v1, r1⟩ := pr
        rw [hf] at h
        have h2 : some (v1, r1) = some (v, r) := h
        have hr : r = r1 := by cases h2; rfl
        obtain ⟨hsplit, -⟩ := findVal_decomp hf
        have := congrArg List.length hsplit
        simp only [List.length_append, List.length_drop] at this
        rw [hr]
        simp only [List.length_cons]
        omega
      | none =>
        rw [hf] at h
        have h2 : sepBack lk rest (rest.takeWhile isWsC).length = some (v, r) := h
        have := sepBack_le lk _ rest v r h2
        simp only [List.length_cons]
        omega
    · rw [if_neg hp] at h
      cases h

theorem scanGo_fuel (start : Char → Bool) (tl : List Char → Option (List Char × List Char))
    (ht : TailLe tl) : ∀ (n₁ : Nat), ∀ (n₂ : Nat) (s : List Char),
      s.length ≤ n₁ → s.length ≤ n₂ → scanGo start tl n₁ s = scanGo start tl n₂ s := by
  intro n₁
  induction n₁ with
  | zero =>
    intro n₂ s h1 _
    have hs : s = [] := List.eq_nil_of_length_eq_zero (Nat.le_zero.mp h1)
    subst hs
    cases n₂ <;> rfl
  | succ k ih =>
    intro n₂ s h1 h2
    cases s with
    | nil => cases n₂ <;> rfl
    | cons c cs =>
      cases n₂ with
      | zero => exact absurd h2 (by simp)
      | succ j =>
        simp only [scanGo]
        by_cases hst : start c = true
        · rw [if_pos hst, if_pos hst]
          cases htl : tl cs with
          | some pr =>
            obtain ⟨v, r⟩ := pr
            have hle := ht cs v r htl
            simp only [List.length_cons] at h1 h2
            show (c, v) :: scanGo start tl k r = (c, v) :: scanGo start tl j r
            rw [ih j r (by omega) (by omega)]
          | none =>
            simp only [List.length_cons] at h1 h2
            show scanGo start tl k cs = scanGo start tl j cs
            rw [ih j cs (by omega) (by omega)]
        · rw [if_neg hst, if_neg hst]
          simp only [List.length_cons] at h1 h2
          rw [ih j cs (by omega) (by omega)]

/-- Wrapper used in the scanning lemmas. -/
def scan (start : Char → Bool) (tl : List Char → Option (List Char × List Char))
    (s : List Char) : List (Char × List Char) := scanGo start tl s.length s

theorem scan_nil (start : Char → Bool) (tl : List Char → Option (List Char × List Char)) :
    scan start tl [] = [] := rfl

theorem scan_cons_hit (start : Char → Bool) (tl : List Char → Option (List Char × List Char))
    (ht : TailLe tl) {c : Char} {cs v r : List Char} (hs : start c = true)
    (htl : tl cs = some (v, r)) :
    scan start tl (c :: cs) = (c, v) :: scan start tl r := by
  unfold scan
  rw [List.length_cons]
  simp only [scanGo, hs, if_true, htl]
  congr 1
  exact scanGo_fuel start tl ht cs.length r.length r (ht cs v r htl) (Nat.le_refl _)

theorem scan_cons_skip (start : Char → Bool) (tl : List Char → Option (List Char × List Char))
    {c : Char} {cs : List Char} (hs : start c = false) :
    scan start tl (c :: cs) = scan start tl cs := by
  unfold scan
  rw [List.length_cons]
  simp only [scanGo, hs, Bool.false_eq_true, if_false]

theorem scan_all_skip (start : Char → Bool) (tl : List Char → Option (List Char × List Char)) :
    ∀ (s : List Char), (∀ c ∈ s, start c = false) → scan start tl s = [] := by
  intro s
  induction s with
  | nil => intro _; rfl
  | cons c cs ih =>
    intro h
    rw [scan_cons_skip start tl (h c (by simp))]
    exact ih (fun d hd => h d (by simp [hd]))

theorem lkCircled_jp_head {c : Char} (cs : List Char) (h : isJpC c = true) :
    lkCircled (c :: cs) = false := by
  simp [lkCircled, List.dropWhile_cons, jp_not_ws h, jp_not_circled h]

theorem lkComma_jp_head {c : Char} (cs : List Char) (h : isJpC c = true) :
    lkComma (c :: cs) = false := by
  simp [lkComma, List.dropWhile_cons, jp_not_ws h, jp_ne_comma h, jp_ne_jcomma h]

/-! ### The multi-line parser on pre-labeled lines -/

theorem mlLine_letter (parts : List (List Char)) (l : Char) (u : List Char) (hu : u ≠ [])
    (hju : ∀ c ∈ u, isJpC c = true) (hla : isAlphaC l = true) (hlw : isWsC l = false)
    (hlc : isCircledC l = false) (hld : isDigitC l = false) :
    mlLine parts (l :: '.' :: ' ' :: u) = parts ++ [upperC l :: '.' :: ' ' :: u] := by
  have hps : pyStrip (l :: '.' :: ' ' :: u) = l :: '.' :: ' ' :: u :=
    pyStrip_eq_self
      (by
        intro c hc
        have h2 : some l = some c := hc
        have h3 : l = c := by injection h2
        exact h3 ▸ hlw)
      (fun c hc => jp_not_ws (getLast_append_jp (x := [l, '.', ' ']) hu hju c hc))
  have htw : u.takeWhile isSepML = [] :=
    takeWhile_head_neg (fun c hc => jp_not_sepML (head_mem_jp hju c hc))
  have hmc : matchCircledLine (l :: '.' :: ' ' :: u) = none := by
    simp [matchCircledLine, hlc]
  have hmn : matchNumLine (l :: '.' :: ' ' :: u) = none := by
    simp [matchNumLine, takeWhile_cons_neg _ hld]
  have hml : matchLetterLine (l :: '.' :: ' ' :: u) = some (l, u) := by
    simp only [matchLetterLine]
    rw [if_pos hla]
    rw [takeWhile_cons_pos _ (by decide), takeWhile_cons_pos _ (by decide), htw]
    rw [if_neg (by simp)]
    have hdrop : (('.' :: ' ' :: u).drop ('.' :: ' ' :: ([] : List Char)).length) = u := rfl
    rw [hdrop, if_pos hu]
  simp only [mlLine, hps, hmc, hmn, hml]
  rw [if_neg (by simp), pyStrip_jp hju]

theorem mlLine_digit (parts : List (List Char)) (d : Char) (n : Nat) (u : List Char)
    (hu : u ≠ []) (hju : ∀ c ∈ u, isJpC c = true) (hdw : isWsC d = false)
    (hdc : isCircledC d = false) (hdd : isDigitC d = true) (hnk : numKey [d] = some n) :
    mlLine parts (d :: '.' :: ' ' :: u) =
      parts ++ [labelsStr.getD (n - 1) 'A' :: '.' :: ' ' :: u] := by
  have hps : pyStrip (d :: '.' :: ' ' :: u) = d :: '.' :: ' ' :: u :=
    pyStrip_eq_self
      (by
        intro c hc
        have h2 : some d = some c := hc
        have h3 : d = c := by injection h2
        exact h3 ▸ hdw)
      (fun c hc => jp_not_ws (getLast_append_jp (x := [d, '.', ' ']) hu hju c hc))
  have hmc : matchCircledLine (d :: '.' :: ' ' :: u) = none := by
    simp [matchCircledLine, hdc]
  have hdwl : ('.' :: ' ' :: u).dropWhile isSepNum = u := by
    rw [List.dropWhile_cons_of_pos (by decide), List.dropWhile_cons_of_pos (by decide)]
    exact dropWhile_head_neg (fun c hc => jp_not_sepNum (head_mem_jp hju c hc))
  have hmn : matchNumLine (d :: '.' :: ' ' :: u) = some ([d], u) := by
    simp only [matchNumLine]
    rw [takeWhile_cons_pos _ hdd, takeWhile_cons_neg _ (by decide)]
    rw [if_neg (by simp)]
    have hdrop : ((d :: '.' :: ' ' :: u).drop (d :: ([] : List Char)).length) =
        '.' :: ' ' :: u := rfl
    rw [hdrop, hdwl, if_pos hu]
  simp only [mlLine, hps, hmc, hmn, hnk]
  rw [if_neg (by simp), pyStrip_jp hju]

theorem mlLine_circled (parts : List (List Char)) (co : Char) (u : List Char) (hu : u ≠ [])
    (hju : ∀ c ∈ u, isJpC c = true) (hcc : isCircledC co = true) (hcw : isWsC co = false) :
    mlLine parts (co :: ' ' :: u) = parts ++ [circledLabel co :: '.' :: ' ' :: u] := by
  have hps : pyStrip (co :: ' ' :: u) = co :: ' ' :: u :=
    pyStrip_eq_self
      (by
        intro c hc
        have h2 : some co = some c := hc
        have h3 : co = c := by injection h2
        exact h3 ▸ hcw)
      (fun c hc => jp_not_ws (getLast_append_jp (x := [co, ' ']) hu hju c hc))
  have hdwl : (' ' :: u).dropWhile isSepML = u := by
    rw [List.dropWhile_cons_of_pos (by decide)]
    exact dropWhile_head_neg (fun c hc => jp_not_sepML (head_mem_jp hju c hc))
  have hmc : matchCircledLine (co :: ' ' :: u) = some (co, u) := by
    simp only [matchCircledLine]
    rw [if_pos hcc, hdwl, if_pos hu]
  simp only [mlLine, hps, hmc]
  rw [if_neg (by simp), pyStrip_jp hju]

/-! ### `format_answer` on pre-labeled two-entry answers -/

theorem fa_ml_letter (u v : List Char) (hu : u ≠ []) (hv : v ≠ [])
    (hju : ∀ c ∈ u, isJpC c = true) (hjv : ∀ c ∈ v, isJpC c = true) :
    format_answer (('A' :: '.' :: ' ' :: u) ++ '\n' :: ('B' :: '.' :: ' ' :: v)) 2 =
      seikai ++ (('A' :: '.' :: ' ' :: u) ++ (wideSep ++ ('B' :: '.' :: ' ' :: v))) := by
  have h1 : pyStrip (('A' :: '.' :: ' ' :: u) ++ '\n' :: ('B' :: '.' :: ' ' :: v)) =
      ('A' :: '.' :: ' ' :: u) ++ '\n' :: ('B' :: '.' :: ' ' :: v) := by
    refine pyStrip_eq_self ?_ ?_
    · intro c hc
      cases u with
      | nil => exact absurd rfl hu
      | cons d ds =>
        have h2 : some 'A' = some c := hc
        have h3 : 'A' = c := by injection h2
        exact h3 ▸ (by decide)
    · intro c hc
      refine jp_not_ws (@getLast_append_jp (('A' :: '.' :: ' ' :: u) ++
        ['\n', 'B', '.', ' ']) v hv hjv c ?_)
      rw [← hc]
      congr 1
      simp
  have h2 : stripSeikai (('A' :: '.' :: ' ' :: u) ++ '\n' :: ('B' :: '.' :: ' ' :: v)) =
      ('A' :: '.' :: ' ' :: u) ++ '\n' :: ('B' :: '.' :: ' ' :: v) := rfl
  have h3 : splitNl (('A' :: '.' :: ' ' :: u) ++ '\n' :: ('B' :: '.' :: ' ' :: v)) =
      [('A' :: '.' :: ' ' :: u), ('B' :: '.' :: ' ' :: v)] := by
    rw [splitNl_append (by
      intro c hc
      simp at hc
      rcases hc with rfl | rfl | rfl | hc
      · decide
      · decide
      · decide
      · exact jp_ne_nl (hju c hc))]
    rw [splitNl_no_nl (by
      intro c hc
      simp at hc
      rcases hc with rfl | rfl | rfl | hc
      · decide
      · decide
      · decide
      · exact jp_ne_nl (hjv c hc))]
  simp only [format_answer]
  rw [if_neg (by decide), if_neg (by decide), h1, h2, h1, h3]
  rw [if_pos (by simp)]
  simp only [List.foldl]
  rw [mlLine_letter [] 'A' u hu hju (by decide) (by decide) (by decide) (by decide)]
  simp only [List.nil_append]
  rw [mlLine_letter _ 'B' v hv hjv (by decide) (by decide) (by decide) (by decide)]
  rw [if_pos (by simp)]
  have hA : upperC 'A' = 'A' := rfl
  have hB : upperC 'B' = 'B' := rfl
  rw [hA, hB]
  simp [joinParts]

theorem fa_ml_digit (u v : List Char) (hu : u ≠ []) (hv : v ≠ [])
    (hju : ∀ c ∈ u, isJpC c = true) (hjv : ∀ c ∈ v, isJpC c = true) :
    format_answer (('1' :: '.' :: ' ' :: u) ++ '\n' :: ('2' :: '.' :: ' ' :: v)) 2 =
      seikai ++ (('A' :: '.' :: ' ' :: u) ++ (wideSep ++ ('B' :: '.' :: ' ' :: v))) := by
  have h1 : pyStrip (('1' :: '.' :: ' ' :: u) ++ '\n' :: ('2' :: '.' :: ' ' :: v)) =
      ('1' :: '.' :: ' ' :: u) ++ '\n' :: ('2' :: '.' :: ' ' :: v) := by
    refine pyStrip_eq_self ?_ ?_
    · intro c hc
      have h2 : some '1' = some c := hc
      have h3 : '1' = c := by injection h2
      exact h3 ▸ (by decide)
    · intro c hc
      refine jp_not_ws (@getLast_append_jp (('1' :: '.' :: ' ' :: u) ++
        ['\n', '2', '.', ' ']) v hv hjv c ?_)
      rw [← hc]
      congr 1
      simp
  have h2 : stripSeikai (('1' :: '.' :: ' ' :: u) ++ '\n' :: ('2' :: '.' :: ' ' :: v)) =
      ('1' :: '.' :: ' ' :: u) ++ '\n' :: ('2' :: '.' :: ' ' :: v) := rfl
  have h3 : splitNl (('1' :: '.' :: ' ' :: u) ++ '\n' :: ('2' :: '.' :: ' ' :: v)) =
      [('1' :: '.' :: ' ' :: u), ('2' :: '.' :: ' ' :: v)] := by
    rw [splitNl_append (by
      intro c hc
      simp at hc
      rcases hc with rfl | rfl | rfl | hc
      · decide
      · decide
      · decide
      · exact jp_ne_nl (hju c hc))]
    rw [splitNl_no_nl (by
      intro c hc
      simp at hc
      rcases hc with rfl | rfl | rfl | hc
      · decide
      · decide
      · decide
      · exact jp_ne_nl (hjv c hc))]
  simp only [format_answer]
  rw [if_neg (by decide), if_neg (by decide), h1, h2, h1, h3]
  rw [if_pos (by simp)]
  simp only [List.foldl]
  rw [mlLine_digit [] '1' 1 u hu hju (by decide) (by decide) (by decide) (by decide)]
  simp only [List.nil_append]
  rw [mlLine_digit _ '2' 2 v hv hjv (by decide) (by decide) (by decide) (by decide)]
  rw [if_pos (by simp)]
  have hA : labelsStr.getD (1 - 1) 'A' = 'A' := rfl
  have hB : labelsStr.getD (2 - 1) 'A' = 'B' := rfl
  rw [hA, hB]
  simp [joinParts]

theorem fa_ml_circled (u v : List Char) (hu : u ≠ []) (hv : v ≠ [])
    (hju : ∀ c ∈ u, isJpC c = true) (hjv : ∀ c ∈ v, isJpC c = true) :
    format_answer (('①' :: ' ' :: u) ++ '\n' :: ('②' :: ' ' :: v)) 2 =
      seikai ++ (('A' :: '.' :: ' ' :: u) ++ (wideSep ++ ('B' :: '.' :: ' ' :: v))) := by
  have h1 : pyStrip (('①' :: ' ' :: u) ++ '\n' :: ('②' :: ' ' :: v)) =
      ('①' :: ' ' :: u) ++ '\n' :: ('②' :: ' ' :: v) := by
    refine pyStrip_eq_self ?_ ?_
    · intro c hc
      have h2 : some '①' = some c := hc
      have h3 : '①' = c := by injection h2
      exact h3 ▸ (by decide)
    · intro c hc
      refine jp_not_ws (@getLast_append_jp (('①' :: ' ' :: u) ++
        ['\n', '②', ' ']) v hv hjv c ?_)
      rw [← hc]
      congr 1
      simp
  have h2 : stripSeikai (('①' :: ' ' :: u) ++ '\n' :: ('②' :: ' ' :: v)) =
      ('①' :: ' ' :: u) ++ '\n' :: ('②' :: ' ' :: v) := rfl
  have h3 : splitNl (('①' :: ' ' :: u) ++ '\n' :: ('②' :: ' ' :: v)) =
      [('①' :: ' ' :: u), ('②' :: ' ' :: v)] := by
    rw [splitNl_append (by
      intro c hc
      simp at hc
      rcases hc with rfl | rfl | hc
      · decide
      · decide
      · exact jp_ne_nl (hju c hc))]
    rw [splitNl_no_nl (by
      intro c hc
      simp at hc
      rcases hc with rfl | rfl | hc
      · decide
      · decide
      · exact jp_ne_nl (hjv c hc))]
  simp only [format_answer]
  rw [if_neg (by decide), if_neg (by decide), h1, h2, h1, h3]
  rw [if_pos (by simp)]
  simp only [List.foldl]
  rw [mlLine_circled [] '①' u hu hju (by decide) (by decide)]
  simp only [List.nil_append]
  rw [mlLine_circled _ '②' v hv hjv (by decide) (by decide)]
  rw [if_pos (by simp)]
  have hA : circledLabel '①' = 'A' := rfl
  have hB : circledLabel '②' = 'B' := rfl
  rw [hA, hB]
  simp [joinParts]

theorem fa_sl_circled (u v : List Char) (hu : u ≠ []) (hv : v ≠ [])
    (hju : ∀ c ∈ u, isJpC c = true) (hjv : ∀ c ∈ v, isJpC c = true) :
    format_answer ('①' :: (u ++ (' ' :: '②' :: v))) 2 =
      seikai ++ (('A' :: '.' :: ' ' :: u) ++ (wideSep ++ ('B' :: '.' :: ' ' :: v))) := by
  have h1 : pyStrip ('①' :: (u ++ (' ' :: '②' :: v))) = '①' :: (u ++ (' ' :: '②' :: v)) := by
    refine pyStrip_eq_self ?_ ?_
    · intro c hc
      have h2 : some '①' = some c := hc
      have h3 : '①' = c := by injection h2
      exact h3 ▸ (by decide)
    · intro c hc
      refine jp_not_ws (@getLast_append_jp ('①' :: (u ++ [' ', '②'])) v hv hjv c ?_)
      rw [← hc]
      congr 1
      simp
  have h2 : stripSeikai ('①' :: (u ++ (' ' :: '②' :: v))) =
      '①' :: (u ++ (' ' :: '②' :: v)) := rfl
  have h3 : splitNl ('①' :: (u ++ (' ' :: '②' :: v))) = [('①' :: (u ++ (' ' :: '②' :: v)))] := by
    refine splitNl_no_nl ?_
    intro c hc he
    subst he
    simp only [List.mem_cons, List.mem_append] at hc
    rcases hc with h | h | h | h | h
    all_goals first
      | exact absurd h (by decide)
      | exact absurd rfl (jp_ne_nl (hju _ h))
      | exact absurd rfl (jp_ne_nl (hjv _ h))
  have hok : ∀ c, isJpC c = true → (fun c => !isCircledC c) c = true := by
    intro c h
    show (!isCircledC c) = true
    rw [jp_not_circled h]
    rfl
  have hct1 : circledTail (u ++ (' ' :: '②' :: v)) = some (u, ' ' :: '②' :: v) := by
    simp only [circledTail]
    rw [takeWhile_head_neg (by
      intro c hc
      cases u with
      | nil => exact absurd rfl hu
      | cons d ds =>
        have h4 : some d = some c := hc
        have h5 : d = c := by injection h4
        exact h5 ▸ jp_not_sepML (hju d (by simp)))]
    simp only [List.length_nil, List.drop_zero]
    rw [findVal_through _ _ hok (fun c cs h => lkCircled_jp_head cs h) u (' ' :: '②' :: v)
      hu hju (by exact rfl)]
  have hct2 : circledTail v = some (v, []) := by
    simp only [circledTail]
    rw [takeWhile_head_neg (fun c hc => jp_not_sepML (head_mem_jp hjv c hc))]
    simp only [List.length_nil, List.drop_zero]
    have hfv : findVal (fun c => !isCircledC c) lkCircled v = some (v, []) := by
      have h := findVal_through _ _ hok (fun c cs h => lkCircled_jp_head cs h) v []
        hv hjv (by decide)
      simpa using h
    rw [hfv]
  have hmc : slCircled ('①' :: (u ++ (' ' :: '②' :: v))) = [('①', u), ('②', v)] := by
    show scan isCircledC circledTail ('①' :: (u ++ (' ' :: '②' :: v))) = _
    rw [scan_cons_hit isCircledC circledTail circledTail_le (by decide) hct1]
    rw [scan_cons_skip isCircledC circledTail (by decide)]
    rw [scan_cons_hit isCircledC circledTail circledTail_le (by decide) hct2]
    rw [scan_nil]
  simp only [format_answer]
  rw [if_neg (by decide), if_neg (by decide), h1, h2, h1, h3]
  rw [if_neg (by simp)]
  rw [hmc]
  rw [if_pos (by simp)]
  simp only [List.map]
  rw [pyStrip_jp hju, pyStrip_jp hjv, rstripComma_jp hju, rstripComma_jp hjv]
  have hA : circledLabel '①' = 'A' := rfl
  have hB : circledLabel '②' = 'B' := rfl
  rw [hA, hB]
  simp [joinParts]

theorem fa_sl_comma (u v : List Char) (hu : u ≠ []) (hv : v ≠ [])
    (hju : ∀ c ∈ u, isJpC c = true) (hjv : ∀ c ∈ v, isJpC c = true) :
    format_answer ('A' :: '.' :: ' ' :: (u ++ (',' :: ' ' :: 'B' :: '.' :: ' ' :: v))) 2 =
      seikai ++ (('A' :: '.' :: ' ' :: u) ++ (wideSep ++ ('B' :: '.' :: ' ' :: v))) := by
  have h1 : pyStrip ('A' :: '.' :: ' ' :: (u ++ (',' :: ' ' :: 'B' :: '.' :: ' ' :: v))) =
      'A' :: '.' :: ' ' :: (u ++ (',' :: ' ' :: 'B' :: '.' :: ' ' :: v)) := by
    refine pyStrip_eq_self ?_ ?_
    · intro c hc
      have h2 : some 'A' = some c := hc
      have h3 : 'A' = c := by injection h2
      exact h3 ▸ (by decide)
    · intro c hc
      refine jp_not_ws (@getLast_append_jp ('A' :: '.' :: ' ' ::
        (u ++ [',', ' ', 'B', '.', ' '])) v hv hjv c ?_)
      rw [← hc]
      congr 1
      simp
  have h2 : stripSeikai ('A' :: '.' :: ' ' :: (u ++ (',' :: ' ' :: 'B' :: '.' :: ' ' :: v))) =
      'A' :: '.' :: ' ' :: (u ++ (',' :: ' ' :: 'B' :: '.' :: ' ' :: v)) := rfl
  have h3 : splitNl ('A' :: '.' :: ' ' :: (u ++ (',' :: ' ' :: 'B' :: '.' :: ' ' :: v))) =
      [('A' :: '.' :: ' ' :: (u ++ (',' :: ' ' :: 'B' :: '.' :: ' ' :: v)))] := by
    refine splitNl_no_nl ?_
    intro c hc he
    subst he
    simp only [List.mem_cons, List.mem_append] at hc
    rcases hc with h | h | h | h | h | h | h | h | h | h
    all_goals first
      | exact absurd h (by decide)
      | exact absurd rfl (jp_ne_nl (hju _ h))
      | exact absurd rfl (jp_ne_nl (hjv _ h))
  have hmcirc : slCircled ('A' :: '.' :: ' ' ::
      (u ++ (',' :: ' ' :: 'B' :: '.' :: ' ' :: v))) = [] := by
    show scan isCircledC circledTail _ = []
    refine scan_all_skip isCircledC circledTail _ ?_
    intro c hc
    simp only [List.mem_cons, List.mem_append] at hc
    rcases hc with h | h | h | h | h | h | h | h | h | h
    all_goals first
      | (subst h; decide)
      | exact jp_not_circled (hju _ h)
      | exact jp_not_circled (hjv _ h)
  have hlt1 : letterTail (fun _ => true) lkComma
      ('.' :: ' ' :: (u ++ (',' :: ' ' :: 'B' :: '.' :: ' ' :: v))) =
      some (u, ',' :: ' ' :: 'B' :: '.' :: ' ' :: v) := by
    simp only [letterTail]
    rw [if_pos (by decide)]
    rw [takeWhile_cons_pos _ (by decide), takeWhile_head_neg (by
      intro c hc
      cases u with
      | nil => exact absurd rfl hu
      | cons d ds =>
        have h4 : some d = some c := hc
        have h5 : d = c := by injection h4
        exact h5 ▸ jp_not_ws (hju d (by simp)))]
    have hdrop : ((' ' :: (u ++ (',' :: ' ' :: 'B' :: '.' :: ' ' :: v))).drop
        ((' ' :: ([] : List Char)).length)) = u ++ (',' :: ' ' :: 'B' :: '.' :: ' ' :: v) := rfl
    rw [hdrop]
    rw [findVal_through _ _ (fun c h => rfl) (fun c cs h => lkComma_jp_head cs h) u
      (',' :: ' ' :: 'B' :: '.' :: ' ' :: v) hu hju (by exact rfl)]
  have hlt2 : letterTail (fun _ => true) lkComma ('.' :: ' ' :: v) = some (v, []) := by
    simp only [letterTail]
    rw [if_pos (by decide)]
    rw [takeWhile_cons_pos _ (by decide), takeWhile_head_neg (fun c hc =>
      jp_not_ws (head_mem_jp hjv c hc))]
    have hdrop2 : ((' ' :: v).drop ((' ' :: ([] : List Char)).length)) = v := rfl
    rw [hdrop2]
    have hfv : findVal (fun _ => true) lkComma v = some (v, []) := by
      have h := findVal_through (fun _ => true) lkComma (fun c h => rfl)
        (fun c cs h => lkComma_jp_head cs h) v [] hv hjv (by decide)
      simpa using h
    rw [hfv]
  have hms : slComma ('A' :: '.' :: ' ' :: (u ++ (',' :: ' ' :: 'B' :: '.' :: ' ' :: v))) =
      [('A', u), ('B', v)] := by
    show scan isAlphaC (letterTail (fun _ => true) lkComma) _ = _
    rw [scan_cons_hit _ _ (letterTail_le _ _) (by decide) hlt1]
    rw [scan_cons_skip _ _ (by decide)]
    rw [scan_cons_skip _ _ (by decide)]
    rw [scan_cons_hit _ _ (letterTail_le _ _) (by decide) hlt2]
    rw [scan_nil]
  simp only [format_answer]
  rw [if_neg (by decide), if_neg (by decide), h1, h2, h1, h3]
  rw [if_neg (by simp)]
  rw [hmcirc]
  rw [if_neg (by simp)]
  rw [hms]
  rw [if_pos (by simp)]
  simp only [List.map]
  rw [pyStrip_jp hju, pyStrip_jp hjv, rstripComma_jp hju, rstripComma_jp hjv]
  have hA : upperC 'A' = 'A' := rfl
  have hB : upperC 'B' = 'B' := rfl
  rw [hA, hB]
  simp [joinParts]

set_option maxRecDepth 1000000 in
/-- C5 counterexample: the answer `1. 赤血球 2. 白血球` consists of two entries
pre-labeled with the digit labels 1 and 2 on a single line, a notation the claim
covers; yet `format_answer` with blank count 2 falls through every parsing strategy
and returns the unparsed literal, not the relabeled entries `A. 赤血球　　B. 白血球`. -/
theorem c5_counterexample :
    format_answer (("1. 赤血球 2. 白血球").data) 2 = seikai ++ (("1. 赤血球 2. 白血球").data) ∧
    format_answer (("1. 赤血球 2. 白血球").data) 2 ≠
      seikai ++ (("A. 赤血球").data ++ (wideSep ++ (("B. 白血球").data))) :=
  ⟨by decide, by decide⟩

/-- C5 (amended): for two entries with nonempty native-script values, pre-labeled
`A`/`B` or `1`/`2` or `①`/`②` on separate lines, or `①value ②value` or
`A. value, B. value` on a single line, `format_answer` with blank count 2 returns the
two entries relabeled `A.` and `B.` in order with their original values; single-line
digit labels and single-line space-separated letter labels are not supported. -/
theorem c5_prelabeled_roundtrip (u v : List Char) (hu : u ≠ []) (hv : v ≠ [])
    (hju : ∀ c ∈ u, isJpC c = true) (hjv : ∀ c ∈ v, isJpC c = true) :
    (format_answer (('A' :: '.' :: ' ' :: u) ++ '\n' :: ('B' :: '.' :: ' ' :: v)) 2 =
       seikai ++ (('A' :: '.' :: ' ' :: u) ++ (wideSep ++ ('B' :: '.' :: ' ' :: v)))) ∧
    (format_answer (('1' :: '.' :: ' ' :: u) ++ '\n' :: ('2' :: '.' :: ' ' :: v)) 2 =
       seikai ++ (('A' :: '.' :: ' ' :: u) ++ (wideSep ++ ('B' :: '.' :: ' ' :: v)))) ∧
    (format_answer (('①' :: ' ' :: u) ++ '\n' :: ('②' :: ' ' :: v)) 2 =
       seikai ++ (('A' :: '.' :: ' ' :: u) ++ (wideSep ++ ('B' :: '.' :: ' ' :: v)))) ∧
    (format_answer ('①' :: (u ++ (' ' :: '②' :: v))) 2 =
       seikai ++ (('A' :: '.' :: ' ' :: u) ++ (wideSep ++ ('B' :: '.' :: ' ' :: v)))) ∧
    (format_answer ('A' :: '.' :: ' ' :: (u ++ (',' :: ' ' :: 'B' :: '.' :: ' ' :: v))) 2 =
       seikai ++ (('A' :: '.' :: ' ' :: u) ++ (wideSep ++ ('B' :: '.' :: ' ' :: v)))) :=
  ⟨fa_ml_letter u v hu hv hju hjv, fa_ml_digit u v hu hv hju hjv,
   fa_ml_circled u v hu hv hju hjv, fa_sl_circled u v hu hv hju hjv,
   fa_sl_comma u v hu hv hju hjv⟩

/-- C5 witness: the amended round-trip theorem applied to the concrete values
`赤血球` and `白血球` in the newline-separated letter notation. -/
theorem c5_witness :
    format_answer (('A' :: '.' :: ' ' :: ("赤血球").data) ++
        '\n' :: ('B' :: '.' :: ' ' :: ("白血球").data)) 2 =
      seikai ++ (('A' :: '.' :: ' ' :: ("赤血球").data) ++
        (wideSep ++ ('B' :: '.' :: ' ' :: ("白血球").data))) :=
  (c5_prelabeled_roundtrip ("赤血球").data ("白血球").data
    (by decide) (by decide) (by decide) (by decide)).1

set_option maxRecDepth 1000000 in
/-- C8 counterexample: the pair produced by one run of `format_question` on the
inputs `あ` and the empty answer is already canonical, yet a second run prepends the
`正解：` tag again, so the pipeline is not idempotent on its own output. -/
theorem c8_counterexample :
    (let r := format_question (("あ").data) [];
     format_question r.question r.answer ≠ r) := by decide

set_option maxRecDepth 1000000 in
/-- C8 (amended): `format_question` is not idempotent on its own output and no
general preservation holds across a second run. On the canonical two-blank pair
built from `これは（　）と（　）である。` and `A. foo, B. bar`, the second run
preserves the formatted answer and the blank count and prepends the fixed
instruction line to the question a second time; and the blank count itself need not
survive a second run: a canonical three-blank output re-counts as 2, because the
rendered blank `（　　C　　）` matches no blank idiom (the bracket-letter idiom
accepts only A, B, a and b). -/
theorem c8_second_run_adds_instruction :
    ((let r1 := format_question (("これは（　）と（　）である。").data) (("A. foo, B. bar").data);
      format_question r1.question r1.answer =
        { question := instructionLine ++ r1.question, answer := r1.answer,
          blank_count := r1.blank_count }) ∧
     (let r3 := format_question (("これは（　）と（　）と（　）である。").data)
         (("A. foo, B. bar, C. baz").data);
      r3.blank_count = 3 ∧ (format_question r3.question r3.answer).blank_count = 2)) :=
  ⟨by decide, by decide, by decide⟩

end SFmt
